import Mathlib

/-!
Verification development for the Mirage mock-API serving platform.

The TypeScript sources are shallowly embedded:
* JS strings are Lean `String`s (all inputs of interest are ASCII);
* JS numbers that the code uses integrally (lengths, status codes, quotas,
  `Date.getTime()` millisecond stamps) are `Int`;
* JSON documents (`response_data`, `request_schema`) are an inductive `Json`
  type; the code under verification never inspects their structure, it only
  passes them around;
* fallible steps return `Option`/`Sum`;
* the AJV JSON-schema validator and the persistence layer are external
  collaborators: functions that delegate to them take the collaborator's
  response (or the relevant table contents) as an explicit argument;
* the JavaScript `RegExp` engine is modelled by an executable parser and
  backtracking matcher covering exactly the constructs the pattern-to-regex
  translation in `src/utils/pattern-matcher.ts` can emit (literal and escaped
  characters, `.`, postfix `*`/`+`/`?` on single-character atoms, `[...]` /
  `[^...]` classes, capturing groups); a regex string outside this fragment
  fails to parse, which the embedding maps to the `catch` fallback of the
  source.  Greedy quantifiers are modelled by emitting candidate outcomes in
  backtracking priority order (longest first) and taking the first full match,
  which is the ECMAScript semantics on this fragment.
-/

set_option maxRecDepth 10000

namespace Mirage

/-- Untyped JSON value (spec §9: "represent as an untyped/structural JSON
value type").  The mock pipeline treats these as opaque documents. -/
inductive Json where
  | null : Json
  | bool (b : Bool) : Json
  | num (n : Int) : Json
  | str (s : String) : Json
  | arr (xs : List Json) : Json
  | obj (fields : List (String × Json)) : Json

/-- Validation error entry as produced by `ValidationService`
(`src/utils/validation.ts`): `{ field, message, value? }`. -/
structure ValidationError where
  field : String
  message : String
  value : Option Json := none

/-- A stored mock endpoint definition (`MockEndpoint` in `src/types`);
`created_at` is the `Date.getTime()` millisecond value, `user_id` is the
owning user added by the multi-tenant migration (nullable for legacy rows). -/
structure MockEndpoint where
  id : String
  name : String
  method : String
  url_pattern : String
  request_schema : Option Json := none
  response_data : Json
  response_status_code : Int
  response_delay_ms : Int
  is_active : Bool
  created_at : Int
  user_id : Option String := none

/-! ## Pattern matcher: the string-rewriting pipeline

`PatternMatcher.matchUrlPattern` builds its regex source text by five
sequential global `String.replace` calls.  Each is embedded as a character
scanner with exactly the semantics of the specific JS regex used:

* `/\{[^}]+\}/g  -> "([^/]+)"`   (braces with a nonempty brace-free body)
* `/:([^/]+)/g   -> "([^/]+)"`   (colon followed by a maximal nonempty
                                  slash-free run)
* `/\*/g         -> ".*"`
* `/\?/g         -> "\\?"`
* `/\./g         -> "\\."`

Global `replace` scans the original text left to right and never rescans
replacement text, which is what the scanners below do. -/

/-- Scanner for the `/\{[^}]+\}/g` replacement, written as a left-to-right
state machine (`some acc` = inside a candidate `{...}` whose body so far is
`acc`, reversed).  At a `{` the JS regex matches iff a nonempty run of
non-`}` characters is followed by `}`; on a match, scanning resumes after the
`}` and the replacement text is never rescanned; `{}` and an unclosed `{`
stay literal. -/
def replaceBracesGo : Option (List Char) → List Char → List Char
  | none, [] => []
  | some acc, [] => '{' :: acc.reverse
  | none, c :: rest =>
    if c = '{' then replaceBracesGo (some []) rest
    else c :: replaceBracesGo none rest
  | some acc, c :: rest =>
    if c = '}' then
      if acc.isEmpty then '{' :: '}' :: replaceBracesGo none rest
      else "([^/]+)".toList ++ replaceBracesGo none rest
    else replaceBracesGo (some (c :: acc)) rest

/-- Entry point for the brace replacement. -/
def replaceBracesL (l : List Char) : List Char :=
  replaceBracesGo none l

/-- Scanner for the `/:([^/]+)/g` replacement (`some acc` = inside a `:`-run;
`[^/]+` swallows every non-`/` character, including further `:`).  A `:`
followed by `/` or end-of-input with an empty run stays literal. -/
def replaceColonsGo : Option (List Char) → List Char → List Char
  | none, [] => []
  | some acc, [] => if acc.isEmpty then [':'] else "([^/]+)".toList
  | none, c :: rest =>
    if c = ':' then replaceColonsGo (some []) rest
    else c :: replaceColonsGo none rest
  | some acc, c :: rest =>
    if c = '/' then
      (if acc.isEmpty then [':'] else "([^/]+)".toList) ++ '/' :: replaceColonsGo none rest
    else replaceColonsGo (some (c :: acc)) rest

/-- Entry point for the colon replacement. -/
def replaceColonsL (l : List Char) : List Char :=
  replaceColonsGo none l

/-- `/\*/g -> ".*"` : single-character global replace. -/
def replaceStarsL (l : List Char) : List Char :=
  l.flatMap fun c => if c = '*' then ['.', '*'] else [c]

/-- `/\?/g -> "\\?"` : single-character global replace. -/
def replaceQmarksL (l : List Char) : List Char :=
  l.flatMap fun c => if c = '?' then ['\\', '?'] else [c]

/-- `/\./g -> "\\."` : single-character global replace.  In the source this
runs *after* the `*` replacement, so it also escapes the `.` that
`* -> .*` just introduced. -/
def replaceDotsL (l : List Char) : List Char :=
  l.flatMap fun c => if c = '.' then ['\\', '.'] else [c]

/-! ## A model of the ECMAScript `RegExp` engine on the emitted fragment

The translation above can only emit: plain characters, escaped characters
(`\.` `\?` …), `.`, postfix `*`/`+`/`?`, character classes `[...]`/`[^...]`,
and capturing groups `( ... )`.  The parser below accepts exactly this
fragment (with quantifiers restricted to single-character atoms, which is all
the translation produces); any other construct makes it return `none`, which
the embedding treats like a `RegExp` constructor failure (the source wraps
regex construction in `try`/`catch`).  Matching follows the ECMAScript
backtracking semantics on this fragment: candidate outcomes are produced in
priority order, greedy quantifiers longest-first, and the overall result is
the first full match. -/

/-- Single-character regex atom. -/
inductive SAtom where
  | chr (c : Char)
  | dot
  | cls (neg : Bool) (cs : List Char)

/-- Postfix quantifier. -/
inductive RQuant where
  | one
  | star
  | plus
  | opt

/-- A quantified single-character atom. -/
structure RSimple where
  atom : SAtom
  quant : RQuant

/-- A regex piece: a quantified atom, or a capturing group of quantified
atoms (the translation only ever emits the flat group `([^/]+)`; a pattern
whose translation would need nested or quantified groups fails to parse and
falls back like an invalid regex). -/
inductive RPiece where
  | simple (p : RSimple)
  | group (ps : List RSimple)

/-- Does a single-character atom match a character?  ECMAScript `.` matches
everything except line terminators. -/
def atomMatches : SAtom → Char → Bool
  | .chr c, d => c == d
  | .dot, d => !(d == '\n' || d == '\r' || d == Char.ofNat 0x2028 || d == Char.ofNat 0x2029)
  | .cls neg cs, d => if neg then !(cs.contains d) else cs.contains d

/-- Remainders after matching `a*` against `s`, greedy (longest consumption)
first; the last entry consumes nothing. -/
def starOutcomes (a : SAtom) : List Char → List (List Char)
  | [] => [[]]
  | c :: cs => if atomMatches a c then starOutcomes a cs ++ [c :: cs] else [c :: cs]

/-- Candidate remainders after one quantified atom, in ECMAScript
backtracking priority order (greedy first). -/
def runSimple : RSimple → List Char → List (List Char)
  | ⟨a, .one⟩, s =>
    match s with
    | [] => []
    | c :: cs => if atomMatches a c then [cs] else []
  | ⟨a, .star⟩, s => starOutcomes a s
  | ⟨a, .plus⟩, s =>
    match s with
    | [] => []
    | c :: cs => if atomMatches a c then starOutcomes a cs else []
  | ⟨a, .opt⟩, s =>
    match s with
    | [] => [[]]
    | c :: cs => if atomMatches a c then [cs, c :: cs] else [c :: cs]

/-- Candidate remainders after a sequence of quantified atoms. -/
def runSimples : List RSimple → List Char → List (List Char)
  | [], s => [s]
  | p :: ps, s => (runSimple p s).flatMap (runSimples ps)

/-- Backtracking run of a piece sequence: the candidate `(remainder,
captures)` outcomes in ECMAScript priority order; a group contributes the
substring it consumed, in group-number order. -/
def runPieces : List RPiece → List Char → List (List Char × List (List Char))
  | [], s => [(s, [])]
  | .simple p :: ps, s =>
    (runSimple p s).flatMap fun r => runPieces ps r
  | .group inner :: ps, s =>
    (runSimples inner s).flatMap fun r =>
      (runPieces ps r).map fun rc => (rc.1, s.take (s.length - r.length) :: rc.2)

/-- Full-match against an (implicitly `^...$`-anchored) piece sequence:
captured substrings of the first candidate outcome that consumes the whole
input, in group-number order. -/
def rxFullMatch (ps : List RPiece) (s : List Char) : Option (List (List Char)) :=
  ((runPieces ps s).find? fun rc => rc.1.isEmpty).map fun rc => rc.2

/-- Class body parser: plain characters up to the closing `]`. -/
def parseClassBody : List Char → Option (List Char × List Char)
  | [] => none
  | c :: rest =>
    if c = ']' then some ([], rest)
    else (parseClassBody rest).map fun p => (c :: p.1, p.2)

/-- Require a parsed group body to be quantified atoms only (the fragment
has no nested groups). -/
def toSimples : List RPiece → Option (List RSimple)
  | [] => some []
  | .simple p :: ps => (toSimples ps).map fun qs => p :: qs
  | .group _ :: _ => none

/-- Read an optional postfix quantifier. -/
def readQuant : List Char → RQuant × List Char
  | [] => (RQuant.one, [])
  | q :: r2 =>
    if q = '*' then (RQuant.star, r2)
    else if q = '+' then (RQuant.plus, r2)
    else if q = '?' then (RQuant.opt, r2)
    else (RQuant.one, q :: r2)

/-- Parse one atom (escape, `.`, class, or plain character). -/
def parseAtom (c : Char) (rest : List Char) : Option (SAtom × List Char) :=
  if c = '\\' then
    match rest with
    | [] => none
    | e :: r1 => some (SAtom.chr e, r1)
  else if c = '.' then some (SAtom.dot, rest)
  else if c = '[' then
    match rest with
    | [] => none
    | d :: r =>
      if d = '^' then
        match parseClassBody r with
        | none => none
        | some (cs, r1) => some (SAtom.cls true cs, r1)
      else
        match parseClassBody (d :: r) with
        | none => none
        | some (cs, r1) => some (SAtom.cls false cs, r1)
  else some (SAtom.chr c, rest)

/-- Fuel-indexed recursive-descent parser for the emitted regex fragment.
Returns the parsed sequence and the unconsumed remainder (which is empty or
starts with the `)` closing the current group).  `none` models a `RegExp`
the fragment does not cover. -/
def parseRxAux : Nat → List Char → Option (List RPiece × List Char)
  | 0, _ => none
  | _ + 1, [] => some ([], [])
  | fuel + 1, c :: rest =>
    if c = ')' then some ([], c :: rest)
    else if c = '*' ∨ c = '+' ∨ c = '?' ∨ c = '^' ∨ c = '$' ∨ c = '|' ∨ c = '{' ∨ c = '}' ∨ c = ']' then
      none
    else if c = '(' then
      match parseRxAux fuel rest with
      | none => none
      | some (inner, r) =>
        match toSimples inner with
        | none => none
        | some simples =>
          match r with
          | [] => none
          | d :: r1 =>
            if d = ')' then
              match r1 with
              | [] =>
                match parseRxAux fuel [] with
                | none => none
                | some (ps, restF) => some (.group simples :: ps, restF)
              | q :: _ =>
                if q = '*' ∨ q = '+' ∨ q = '?' then none
                else
                  match parseRxAux fuel r1 with
                  | none => none
                  | some (ps, restF) => some (.group simples :: ps, restF)
            else none
    else
      match parseAtom c rest with
      | none => none
      | some (a, r1) =>
        let qr := readQuant r1
        match parseRxAux fuel qr.2 with
        | none => none
        | some (ps, restF) => some (.simple ⟨a, qr.1⟩ :: ps, restF)

/-- Compile a regex body (the text between the `^` and `$` the source adds):
parse with adequate fuel and reject leftover input (an unbalanced `)`). -/
def jsRegexParse (body : List Char) : Option (List RPiece) :=
  match parseRxAux (body.length + 1) body with
  | some (ps, []) => some ps
  | _ => none

/-! ## `PatternMatcher` (src/utils/pattern-matcher.ts) -/

/-- The regex source built by `matchUrlPattern` (without the surrounding
`^`/`$`, which the embedding realises as full-match semantics):
braces, then colons, then `*`, then `?`, then `.`. -/
def toRegexBody (pattern : String) : List Char :=
  replaceDotsL (replaceQmarksL (replaceStarsL (replaceColonsL (replaceBracesL pattern.toList))))

/-- `PatternMatcher.matchUrlPattern`: exact match fast path, otherwise test
the derived anchored regex; if the regex cannot be built, fall back to exact
comparison (the `catch` branch). -/
def matchUrlPattern (requestUrl pattern : String) : Bool :=
  if requestUrl = pattern then true
  else
    match jsRegexParse (toRegexBody pattern) with
    | some ps => (rxFullMatch ps requestUrl.toList).isSome
    | none => requestUrl = pattern

/-- The `exec` loop over `/\{([^}]+)\}/g` as a state machine (same scanning
discipline as `replaceBracesGo`), collecting the `{name}` parameter names in
textual order. -/
def braceNamesGo : Option (List Char) → List Char → List String
  | _, [] => []
  | none, c :: rest =>
    if c = '{' then braceNamesGo (some []) rest
    else braceNamesGo none rest
  | some acc, c :: rest =>
    if c = '}' then
      if acc.isEmpty then braceNamesGo none rest
      else String.mk acc.reverse :: braceNamesGo none rest
    else braceNamesGo (some (c :: acc)) rest

/-- Entry point for the `{name}` scan. -/
def braceParamNames (l : List Char) : List String :=
  braceNamesGo none l

/-- The `exec` loop over `/:([^/]+)/g` as a state machine (same scanning
discipline as `replaceColonsGo`), collecting the `:name` parameter names in
textual order. -/
def colonNamesGo : Option (List Char) → List Char → List String
  | none, [] => []
  | some acc, [] => if acc.isEmpty then [] else [String.mk acc.reverse]
  | none, c :: rest =>
    if c = ':' then colonNamesGo (some []) rest
    else colonNamesGo none rest
  | some acc, c :: rest =>
    if c = '/' then
      (if acc.isEmpty then [] else [String.mk acc.reverse]) ++ colonNamesGo none rest
    else colonNamesGo (some (c :: acc)) rest

/-- Entry point for the `:name` scan. -/
def colonParamNames (l : List Char) : List String :=
  colonNamesGo none l

/-- JS object property assignment `params[name] = value` on a
`Record<string, string>` modelled as an insertion-ordered association list:
an existing key keeps its position, a new key is appended. -/
def recordSet (m : List (String × String)) (k v : String) : List (String × String) :=
  if m.any fun p => p.1 == k then
    m.map fun p => if p.1 == k then (k, v) else p
  else
    m ++ [(k, v)]

/-- The `paramNames.forEach((name, index) => ...)` loop: the `index`-th name
receives the `index`-th capture; a missing (`undefined`) or empty (falsy)
capture is skipped. -/
def assignParams : List String → List (List Char) → List (String × String) → List (String × String)
  | [], _, m => m
  | _ :: ns, [], m => assignParams ns [] m
  | n :: ns, c :: cs, m =>
    assignParams ns cs (if c ≠ [] then recordSet m n (String.mk c) else m)

/-- The capturing regex source built by `extractPathParameters` (only the
brace and colon replacements; no `*`/`?`/`.` handling here). -/
def extractRegexBody (pattern : String) : List Char :=
  replaceColonsL (replaceBracesL pattern.toList)

/-- `PatternMatcher.extractPathParameters`: re-derive the parameter names
(brace scan first, then colon scan), rebuild the capturing regex, match the
URL against it and assign captures to names by index; any regex failure or
non-match yields the empty record. -/
def extractPathParameters (requestUrl pattern : String) : List (String × String) :=
  let paramNames := braceParamNames pattern.toList ++ colonParamNames pattern.toList
  if paramNames.isEmpty then []
  else
    match jsRegexParse (extractRegexBody pattern) with
    | none => []
    | some ps =>
      match rxFullMatch ps requestUrl.toList with
      | none => []
      | some caps =>
        if caps.length ≥ 1 then assignParams paramNames caps [] else []

/-- The comparator passed to `matchingEndpoints.sort` in `findBestMatch`:
exact matches first, then longer patterns, then newer `created_at`. -/
def endpointCmp (requestUrl : String) (a b : MockEndpoint) : Int :=
  let aIsExact := requestUrl == a.url_pattern
  let bIsExact := requestUrl == b.url_pattern
  if aIsExact && !bIsExact then -1
  else if !aIsExact && bIsExact then 1
  else if a.url_pattern.length ≠ b.url_pattern.length then
    (b.url_pattern.length : Int) - (a.url_pattern.length : Int)
  else
    b.created_at - a.created_at

/-- `PatternMatcher.findBestMatch`: filter to active endpoints of the
request's method whose pattern matches, sort by the comparator, return the
first (or `null` when nothing matches).  `Array.prototype.sort` is stable
(ECMAScript 2019+) and the comparator is a consistent total preorder, so any
stable sort — here `List.insertionSort` on `endpointCmp ≤ 0` — produces the
array the source ends up with. -/
def findBestMatch (requestUrl method : String) (endpoints : List MockEndpoint) : Option MockEndpoint :=
  let matching := endpoints.filter fun e =>
    e.method == method && e.is_active && matchUrlPattern requestUrl e.url_pattern
  if matching.isEmpty then none
  else (List.insertionSort (fun a b => endpointCmp requestUrl a b ≤ 0) matching).head?

/-! ## Validation service (src/utils/validation.ts)

`ValidationService.validateSchema` delegates to AJV, an external library; its
verdict is therefore a parameter (`validator`) of every function that uses
it.  `validateRequestBody` adds the in-repo shortcut for a missing schema. -/

/-- The AJV collaborator: given `(data, schema)`, a pass/fail verdict and a
list of field-level errors. -/
def Validator : Type :=
  Json → Json → Bool × List ValidationError

/-- `ValidationService.validateRequestBody`: no schema means valid, otherwise
defer to `validateSchema` (AJV). -/
def validateRequestBody (validator : Validator) (body : Json) (schema : Option Json) :
    Bool × List ValidationError :=
  match schema with
  | none => (true, [])
  | some s => validator body s

/-- JavaScript truthiness on a JSON value (used for `request.body`,
`response_data`, `response_status_code || 200`-style defaults). -/
def jsTruthy : Json → Bool
  | .null => false
  | .bool b => b
  | .num n => n != 0
  | .str s => s != ""
  | .arr _ => true
  | .obj _ => true

/-! ## Mock endpoint service (src/services/mock-endpoint.service.ts) -/

/-- Inbound mock request (`MockRequest` in `src/types`); `body = none` models
an absent body (`undefined`). -/
structure MockRequest where
  method : String
  url : String
  headers : List (String × String) := []
  body : Option Json := none
  query : List (String × String) := []

/-- Service-level mock response (`MockResponse` in `src/types`); the
validation-failure response carries no `headers` field. -/
structure MockResponse where
  status_code : Int
  data : Json
  headers : Option (List (String × String)) := none
  delay_ms : Int

/-- JSON rendering of one validation error for the 400 payload. -/
def jsonOfValidationError (e : ValidationError) : Json :=
  Json.obj
    ([("field", Json.str e.field), ("message", Json.str e.message)] ++
      (match e.value with
       | none => []
       | some v => [("value", v)]))

/-- The fixed 400 payload `{ error: 'Request validation failed', details }`. -/
def validationFailureResponse (errors : List ValidationError) : MockResponse :=
  { status_code := 400
    data := Json.obj
      [("error", Json.str "Request validation failed"),
       ("details", Json.arr (errors.map jsonOfValidationError))]
    headers := none
    delay_ms := 0 }

/-- The success response built from the matched endpoint: configured status,
configured data, the three diagnostic headers, configured delay. -/
def mockSuccessResponse (matched : MockEndpoint) : MockResponse :=
  { status_code := matched.response_status_code
    data := matched.response_data
    headers := some
      [("X-Mirage-Mock", "true"),
       ("X-Mirage-Endpoint-Id", matched.id),
       ("X-Mirage-Matched-Pattern", matched.url_pattern)]
    delay_ms := matched.response_delay_ms }

/-- `MockEndpointService.handleMockRequest`: find the best match among the
store's candidates (`findMatchingEndpoints(method)` result, passed in as
`candidates`); `null` when nothing matches; validate the body when the
endpoint has a schema and the body is truthy, answering 400 on failure;
otherwise extract parameters (logged only), wait out the configured delay
(no effect on the returned value) and return the configured response. -/
def handleMockRequest (validator : Validator) (candidates : List MockEndpoint)
    (request : MockRequest) : Option MockResponse :=
  match findBestMatch request.url request.method candidates with
  | none => none
  | some matched =>
    let validationFailed :=
      match matched.request_schema, request.body with
      | some schema, some body =>
        if jsTruthy body then
          let v := validateRequestBody validator body (some schema)
          if !v.1 then some v.2 else none
        else none
      | _, _ => none
    match validationFailed with
    | some errors => some (validationFailureResponse errors)
    | none =>
      let _pathParams := extractPathParameters request.url matched.url_pattern
      some (mockSuccessResponse matched)

/-- `MockEndpointModel.findByMethodAndPattern`: newest active row with this
method and pattern, optionally scoped to a user (`userId`); the service's
duplicate pre-check calls it *without* a user. -/
def findByMethodAndPattern (store : List MockEndpoint) (method urlPattern : String)
    (userId : Option String) : Option MockEndpoint :=
  let rows := store.filter fun e =>
    e.method == method && e.url_pattern == urlPattern && e.is_active &&
      (match userId with
       | none => true
       | some u => e.user_id == some u)
  (List.insertionSort (fun a b => b.created_at ≤ a.created_at) rows).head?

/-- Endpoint-creation request body (`CreateMockEndpointRequest`). -/
structure CreateMockEndpointRequest where
  name : String
  description : Option String := none
  method : String
  url_pattern : String
  request_schema : Option Json := none
  response_data : Option Json := none
  response_status_code : Option Int := none
  response_delay_ms : Option Int := none
  created_by : Option String := none

/-- JavaScript `String.prototype.trim`-style whitespace test (ASCII range;
the claims never exercise exotic Unicode whitespace). -/
def jsWhitespace (c : Char) : Bool :=
  c = ' ' || c = '\t' || c = '\n' || c = '\r' || c = '\x0b' || c = '\x0c'

/-- `name.trim()` on the character list. -/
def jsTrimL (l : List Char) : List Char :=
  ((l.dropWhile jsWhitespace).reverse.dropWhile jsWhitespace).reverse

/-- `MockEndpointService['validateCreateRequest']`, including the JS truthiness
quirks (`data.response_status_code && ...` skips the range check for 0). -/
def validateCreateRequest (maxResponseDelay : Int) (data : CreateMockEndpointRequest) :
    List ValidationError :=
  (if (jsTrimL data.name.toList).isEmpty then
    [ValidationError.mk "name" "Name is required" none] else []) ++
  (if data.method = "" then [ValidationError.mk "method" "Method is required" none]
   else if !(["GET", "POST", "PUT", "DELETE", "PATCH"].contains data.method) then
     [ValidationError.mk "method" "Invalid HTTP method" none]
   else []) ++
  (if data.url_pattern = "" then
     [ValidationError.mk "url_pattern" "URL pattern is required" none]
   else if !("/".toList.isPrefixOf data.url_pattern.toList) then
     [ValidationError.mk "url_pattern" "URL pattern must start with /" none]
   else []) ++
  (match data.response_data with
   | none => [ValidationError.mk "response_data" "Response data is required" none]
   | some v =>
     if !(jsTruthy v) then [ValidationError.mk "response_data" "Response data is required" none]
     else []) ++
  (match data.response_status_code with
   | some c =>
     if c != 0 && (c < 100 || c ≥ 600) then
       [ValidationError.mk "response_status_code" "Invalid HTTP status code" none]
     else []
   | none => []) ++
  (match data.response_delay_ms with
   | some d =>
     if d != 0 && (d < 0 || d > maxResponseDelay) then
       [ValidationError.mk "response_delay_ms" "Response delay out of range" none]
     else []
   | none => [])

/-- Result of `MockEndpointService.createEndpoint`: `{ id, errors? }`. -/
structure CreateResult where
  id : String
  errors : List ValidationError := []

/-- The row `MockEndpointModel.create` inserts (DB defaults: status `|| 200`,
delay `|| 0`, `is_active` true, server-assigned timestamp). -/
def createdRow (data : CreateMockEndpointRequest) (newId : String) (now : Int)
    (owner : Option String) : MockEndpoint :=
  { id := newId
    name := data.name
    method := data.method
    url_pattern := data.url_pattern
    request_schema := data.request_schema
    response_data := data.response_data.getD Json.null
    response_status_code :=
      match data.response_status_code with
      | some c => if c = 0 then 200 else c
      | none => 200
    response_delay_ms :=
      match data.response_delay_ms with
      | some d => if d = 0 then 0 else d
      | none => 0
    is_active := true
    created_at := now
    user_id := owner }

/-- `MockEndpointService.createEndpoint`: input validation, then the
duplicate pre-check — `findByMethodAndPattern(data.method, data.url_pattern)`
with **no user argument** — then the insert.  `actingUser` is the
authenticated caller the controller layer resolves; it is threaded to the
insert only, exactly as in the source, where the duplicate check is not
scoped to an owner. -/
def createEndpoint (maxResponseDelay : Int) (store : List MockEndpoint)
    (actingUser : Option String) (newId : String) (now : Int)
    (data : CreateMockEndpointRequest) : CreateResult × List MockEndpoint :=
  let validationErrors := validateCreateRequest maxResponseDelay data
  if !validationErrors.isEmpty then
    ({ id := "", errors := validationErrors }, store)
  else
    match findByMethodAndPattern store data.method data.url_pattern none with
    | some _ =>
      ({ id := ""
         errors := [ValidationError.mk "url_pattern"
           ("Active endpoint already exists for " ++ data.method ++ " " ++ data.url_pattern) none] },
       store)
    | none => ({ id := newId }, store ++ [createdRow data newId now actingUser])

/-! ## Mock serving controller (src/controllers/mock-serving.controller.ts) -/

/-- Outcome of `MockServingController.serveMockRequest` at the HTTP
boundary. -/
inductive ServeResult where
  | notFound (body : Json)
  | served (status : Int) (body : Json) (headers : List (String × String))

/-- `req.path.replace(/^\/mock/, '')` followed by `mockPath || '/'`. -/
def stripMockPath (path : String) : String :=
  let l := path.toList
  let mockPath := if "/mock".toList.isPrefixOf l then l.drop 5 else l
  if mockPath.isEmpty then "/" else String.mk mockPath

/-- The structured 404 payload for `MOCK_ENDPOINT_NOT_FOUND` (`timestamp` is
the wall clock, passed in as `nowIso`). -/
def notFoundPayload (method url nowIso : String) : Json :=
  Json.obj
    [("error", Json.str "No matching mock endpoint found"),
     ("message", Json.str ("No mock endpoint configured for " ++ method ++ " " ++ url)),
     ("code", Json.str "MOCK_ENDPOINT_NOT_FOUND"),
     ("timestamp", Json.str nowIso),
     ("path", Json.str url)]

/-- Controller outcome together with the `(req as any).endpointId` the
controller stores for the usage-tracking middleware. -/
structure ServeOutcome where
  result : ServeResult
  endpointId : Option String

/-- `MockServingController.serveMockRequest`: strip the `/mock` prefix,
dispatch through the service, answer 404 on `null`, otherwise emit the
service headers plus the standard diagnostic headers and the configured
status/body.  `processingMs` stands for the measured wall-clock duration. -/
def serveMockRequest (validator : Validator) (candidates : List MockEndpoint)
    (path method nowIso : String) (body : Option Json) (processingMs : Int) :
    ServeOutcome :=
  let url := stripMockPath path
  let mockRequest : MockRequest := { method := method, url := url, body := body }
  match handleMockRequest validator candidates mockRequest with
  | none => { result := .notFound (notFoundPayload method url nowIso), endpointId := none }
  | some r =>
    let custom := r.headers.getD []
    let headers := custom ++
      [("Content-Type", "application/json"),
       ("X-Mirage-Processing-Time", toString processingMs ++ "ms"),
       ("X-Mirage-Delay-Applied", toString r.delay_ms ++ "ms")]
    let endpointId := (custom.find? fun p => p.1 == "X-Mirage-Endpoint-Id").map fun p => p.2
    { result := .served r.status_code r.data headers, endpointId := endpointId }

/-- The HTTP status the response object carries when `res.send` fires. -/
def serveStatus : ServeResult → Int
  | .notFound _ => 404
  | .served s _ _ => s

/-! ## Auth middleware: quota and usage accounting (src/middleware/auth.ts,
src/models/user.model.ts) -/

/-- Subscription plan limits (`subscription_plans`). -/
structure SubscriptionPlan where
  max_endpoints : Int
  max_requests_per_month : Int
  max_request_delay_ms : Int

/-- `UsageStats` as computed by `UserModel.getUserUsageStats` (period dates
omitted; no claim touches them). -/
structure UsageStats where
  current_period_requests : Int
  max_requests : Int
  requests_remaining : Int
  current_period_endpoints : Int
  max_endpoints : Int
  endpoints_remaining : Int

/-- `UserModel.getUserUsageStats`: the month's `api_usage` count and the
active-endpoint count (results of the two aggregation queries, passed in),
with plan limits defaulted via `|| 10` (JS falsy fallback). -/
def getUserUsageStats (requestCount endpointCount : Int)
    (subscription : Option SubscriptionPlan) : UsageStats :=
  let maxRequests :=
    match subscription with
    | some s => if s.max_requests_per_month = 0 then 10 else s.max_requests_per_month
    | none => 10
  let maxEndpoints :=
    match subscription with
    | some s => if s.max_endpoints = 0 then 10 else s.max_endpoints
    | none => 10
  { current_period_requests := requestCount
    max_requests := maxRequests
    requests_remaining := max 0 (maxRequests - requestCount)
    current_period_endpoints := endpointCount
    max_endpoints := maxEndpoints
    endpoints_remaining := max 0 (maxEndpoints - endpointCount) }

/-- An `AppError` as raised through `next(error)`. -/
structure AppError where
  message : String
  statusCode : Int
  code : String

/-- A middleware either lets the request continue or halts it with an
error. -/
inductive MiddlewareStep where
  | proceed
  | halt (e : AppError)

/-- Which quota a `checkQuota` instance guards. -/
inductive QuotaType where
  | requests
  | endpoints

/-- The authenticated caller as the quota middleware sees them: identity plus
the durable-store aggregates `getUserUsageStats` reads for them. -/
structure UserCtx where
  id : String
  requestCount : Int
  endpointCount : Int
  subscription : Option SubscriptionPlan

/-- `AuthMiddleware.checkQuota(quotaType, { exempt })`: exempt instances pass
unconditionally; an unresolved identity is rejected with 401 `AUTH_REQUIRED`;
otherwise the freshly recomputed stats must leave remaining quota. -/
def checkQuota (quotaType : QuotaType) (exempt : Bool) (user : Option UserCtx) :
    MiddlewareStep :=
  if exempt then .proceed
  else
    match user with
    | none =>
      .halt
        { message := "Authentication required to access mock endpoints"
          statusCode := 401
          code := "AUTH_REQUIRED" }
    | some u =>
      let stats := getUserUsageStats u.requestCount u.endpointCount u.subscription
      let hasQuota :=
        match quotaType with
        | .requests => decide (stats.requests_remaining > 0)
        | .endpoints => decide (stats.endpoints_remaining > 0)
      if hasQuota then .proceed
      else
        .halt
          { message :=
              match quotaType with
              | .requests =>
                "Monthly request limit exceeded (" ++ toString stats.max_requests ++ " requests)"
              | .endpoints =>
                "Endpoint limit exceeded (" ++ toString stats.max_endpoints ++ " endpoints)"
            statusCode := 429
            code := "QUOTA_EXCEEDED" }

/-- `AuthMiddleware.checkQuotaExempt()` is `checkQuota('requests',
{ exempt: true })`. -/
def checkQuotaExempt (user : Option UserCtx) : MiddlewareStep :=
  checkQuota .requests true user

/-- One `api_usage` row (`user_schema.sql`: `endpoint_id` is nullable). -/
structure ApiUsage where
  user_id : String
  endpoint_id : Option String
  method : String
  url_pattern : String
  response_status_code : Option Int
  processing_time_ms : Option Int
  date_key : Int

/-- JS `x || null` on an optional number: 0 collapses to null. -/
def jsOrNull : Option Int → Option Int
  | some 0 => none
  | x => x

/-- `UserModel.trackApiUsage`: unconditional single-row INSERT into
`api_usage` (the catch swallows DB failures; the insert itself always
succeeds since `endpoint_id` is nullable). -/
def trackApiUsage (store : List ApiUsage) (userId : String) (endpointId : Option String)
    (method urlPattern : String) (statusCode processingTime : Option Int)
    (today : Int) : List ApiUsage :=
  store ++
    [{ user_id := userId
       endpoint_id := endpointId
       method := method
       url_pattern := urlPattern
       response_status_code := jsOrNull statusCode
       processing_time_ms := jsOrNull processingTime
       date_key := today }]

/-- `AuthMiddleware.trackUsage`'s wrapped `res.send`: when a user identity is
attached to the request, fire-and-forget a usage row recording the response's
status; anonymous requests record nothing.  `urlPattern` is
`req.route?.path || req.path`; `endpointId` is `(req as any).endpointId ||
null` (set only when a mock was actually served). -/
def trackUsageOnSend (user : Option UserCtx) (endpointId : Option String)
    (method urlPattern : String) (statusCode processingMs : Int) (today : Int)
    (store : List ApiUsage) : List ApiUsage :=
  match user with
  | none => store
  | some u =>
    trackApiUsage store u.id endpointId method urlPattern (some statusCode)
      (some processingMs) today

/-- The mock-serving route chain of `createMockServingRoutes`:
`optionalAuthenticate` resolves `user` (anonymous on failure), then
`checkQuota('requests')` (not exempt), then `trackUsage` wraps `res.send`,
then the controller runs and its response is sent (which triggers the usage
insert).  Returns either the halting error or the HTTP outcome together with
the usage table after the send. -/
def mockServingPipeline (validator : Validator) (candidates : List MockEndpoint)
    (user : Option UserCtx) (path method nowIso : String) (body : Option Json)
    (usageStore : List ApiUsage) (today processingMs : Int) :
    AppError ⊕ (ServeResult × List ApiUsage) :=
  match checkQuota .requests false user with
  | .halt e => .inl e
  | .proceed =>
    let outcome := serveMockRequest validator candidates path method nowIso body processingMs
    let store' :=
      trackUsageOnSend user outcome.endpointId method path
        (serveStatus outcome.result) processingMs today usageStore
    .inr (outcome.result, store')

/-! ## Segment-structured patterns (parameter-extraction claim)

`extractPathParameters`'s contract concerns URL templates made of
`/`-separated segments, each a literal, a `{name}` placeholder, or a `:name`
placeholder.  `SegV` couples each segment with the concrete value the request
path carries at its position (unused for literals), so a single list renders
both the pattern and a path the pattern matches. -/

/-- A pattern segment with its path value. -/
inductive SegV where
  | lit (s : String)
  | brace (name : String) (v : String)
  | colon (name : String) (v : String)

/-- Characters allowed in well-formed literal segments and parameter names:
alphanumerics, `-` and `_` (no separators, scanner triggers or regex
metacharacters). -/
def plainChar (c : Char) : Bool :=
  c.isAlphanum || c = '-' || c = '_'

/-- Well-formed segment: nonempty plain literal/name; parameter values
nonempty and slash-free (what `[^/]+` captures). -/
def segWF : SegV → Prop
  | .lit s => s.toList ≠ [] ∧ ∀ c ∈ s.toList, plainChar c = true
  | .brace n v =>
    (n.toList ≠ [] ∧ ∀ c ∈ n.toList, plainChar c = true) ∧
    (v.toList ≠ [] ∧ ∀ c ∈ v.toList, c ≠ '/')
  | .colon n v =>
    (n.toList ≠ [] ∧ ∀ c ∈ n.toList, plainChar c = true) ∧
    (v.toList ≠ [] ∧ ∀ c ∈ v.toList, c ≠ '/')

/-- The pattern text of one segment. -/
def segPatChars : SegV → List Char
  | .lit s => s.toList
  | .brace n _ => '{' :: n.toList ++ ['}']
  | .colon n _ => ':' :: n.toList

/-- The path text of one segment. -/
def segUrlChars : SegV → List Char
  | .lit s => s.toList
  | .brace _ v => v.toList
  | .colon _ v => v.toList

/-- The rendered pattern: `/seg1/seg2/...`. -/
def renderPattern (segs : List SegV) : List Char :=
  segs.flatMap fun sg => '/' :: segPatChars sg

/-- The rendered request path. -/
def renderUrl (segs : List SegV) : List Char :=
  segs.flatMap fun sg => '/' :: segUrlChars sg

/-- The `{name}` parameters in declaration order. -/
def braceNamesOf : List SegV → List String
  | [] => []
  | .brace n _ :: segs => n :: braceNamesOf segs
  | .lit _ :: segs => braceNamesOf segs
  | .colon _ _ :: segs => braceNamesOf segs

/-- The `:name` parameters in declaration order. -/
def colonNamesOf : List SegV → List String
  | [] => []
  | .colon n _ :: segs => n :: colonNamesOf segs
  | .lit _ :: segs => colonNamesOf segs
  | .brace _ _ :: segs => colonNamesOf segs

/-- The parameter values in left-to-right path order. -/
def paramValsOf : List SegV → List String
  | [] => []
  | .lit _ :: segs => paramValsOf segs
  | .brace _ v :: segs => v :: paramValsOf segs
  | .colon _ v :: segs => v :: paramValsOf segs

/-- The regex text both replacements leave behind: parameters become
`([^/]+)`, literals stay. -/
def segRxChars : SegV → List Char
  | .lit s => s.toList
  | .brace _ _ => "([^/]+)".toList
  | .colon _ _ => "([^/]+)".toList

/-- The rendered capturing regex body. -/
def renderRx (segs : List SegV) : List Char :=
  segs.flatMap fun sg => '/' :: segRxChars sg

/-- The intermediate text after only the brace replacement. -/
def segMidChars : SegV → List Char
  | .lit s => s.toList
  | .brace _ _ => "([^/]+)".toList
  | .colon n _ => ':' :: n.toList

/-- The rendered intermediate text after the brace replacement. -/
def renderMid (segs : List SegV) : List Char :=
  segs.flatMap fun sg => '/' :: segMidChars sg

/-- The parsed pieces of the rendered regex. -/
def segPieces : SegV → List RPiece
  | .lit s => s.toList.map fun c => .simple ⟨.chr c, .one⟩
  | .brace _ _ => [.group [⟨.cls true ['/'], .plus⟩]]
  | .colon _ _ => [.group [⟨.cls true ['/'], .plus⟩]]

/-- The parsed piece sequence of the rendered regex. -/
def renderPieces (segs : List SegV) : List RPiece :=
  segs.flatMap fun sg => .simple ⟨.chr '/', .one⟩ :: segPieces sg

/-- Does the pattern declare at least one parameter? -/
def isParamSeg : SegV → Prop
  | .lit _ => False
  | .brace _ _ => True
  | .colon _ _ => True

/-- Text that does not begin with a postfix quantifier. -/
def quantFree : List Char → Prop
  | [] => True
  | c :: _ => c ≠ '*' ∧ c ≠ '+' ∧ c ≠ '?'

/-! ## Claim-level vocabulary -/

/-- An endpoint is a dispatch candidate for a request: right method, active,
pattern matches the path. -/
def isCandidate (requestUrl method : String) (e : MockEndpoint) : Prop :=
  e.method = method ∧ e.is_active = true ∧ matchUrlPattern requestUrl e.url_pattern = true

/-- The best-match ordering as the spec states it: an endpoint whose pattern
is byte-identical to the request path beats every non-exact match; between
endpoints of equal exactness the longer pattern wins; remaining ties go to
the newer `created_at`.  `claimAtLeast url a b` says `a` is at least as
preferred as `b`. -/
def claimAtLeast (requestUrl : String) (a b : MockEndpoint) : Prop :=
  (a.url_pattern = requestUrl ∧ ¬ b.url_pattern = requestUrl) ∨
  ((a.url_pattern = requestUrl ↔ b.url_pattern = requestUrl) ∧
    b.url_pattern.length < a.url_pattern.length) ∨
  ((a.url_pattern = requestUrl ↔ b.url_pattern = requestUrl) ∧
    a.url_pattern.length = b.url_pattern.length ∧ b.created_at ≤ a.created_at)

/-! ## Concrete fixtures used by witnesses and counterexamples -/

/-- Fixture for C3: an active endpoint owned by `user-a`. -/
def c3Existing : MockEndpoint :=
  { id := "e1"
    name := "things"
    method := "GET"
    url_pattern := "/api/things"
    response_data := Json.obj [("ok", Json.bool true)]
    response_status_code := 200
    response_delay_ms := 0
    is_active := true
    created_at := 100
    user_id := some "user-a" }

/-- Fixture for C3: a creation request by a different owner for the same
method and pattern. -/
def c3Request : CreateMockEndpointRequest :=
  { name := "things-b"
    method := "GET"
    url_pattern := "/api/things"
    response_data := some (Json.obj [("ok", Json.bool true)]) }

/-- Fixture for C6 and C10: a `POST /api/login` endpoint with a request
schema requiring `email` and `password`. -/
def c6Endpoint : MockEndpoint :=
  { id := "e6"
    name := "login"
    method := "POST"
    url_pattern := "/api/login"
    request_schema := some (Json.obj
      [("type", Json.str "object"),
       ("required", Json.arr [Json.str "email", Json.str "password"])])
    response_data := Json.obj [("token", Json.str "abc")]
    response_status_code := 201
    response_delay_ms := 0
    is_active := true
    created_at := 1 }

/-- Fixture for C6: the AJV verdict on a body missing `password`. -/
def c6Validator : Validator := fun _ _ =>
  (false, [ValidationError.mk "password" "must have required property password" none])

/-- Fixture for C6: a request whose body misses `password`. -/
def c6Request : MockRequest :=
  { method := "POST"
    url := "/api/login"
    body := some (Json.obj [("email", Json.str "a@b.c")]) }

/-- Fixture for C10: the C6 endpoint hit with no request body. -/
def c10Request : MockRequest :=
  { method := "POST"
    url := "/api/login"
    body := none }

/-- Fixture for C8: one active endpoint that does not match the probe path. -/
def c8Endpoint : MockEndpoint :=
  { id := "e8"
    name := "users"
    method := "GET"
    url_pattern := "/api/users"
    response_data := Json.obj [("ok", Json.bool true)]
    response_status_code := 200
    response_delay_ms := 0
    is_active := true
    created_at := 1 }

/-- Fixture for C2: the exact-match endpoint. -/
def c2Exact : MockEndpoint :=
  { id := "exact"
    name := "users"
    method := "GET"
    url_pattern := "/api/users"
    response_data := Json.obj [("ok", Json.bool true)]
    response_status_code := 200
    response_delay_ms := 0
    is_active := true
    created_at := 1 }

/-- Fixture for C2: the parametrized competitor, newer but not exact. -/
def c2Param : MockEndpoint :=
  { id := "param"
    name := "one-user"
    method := "GET"
    url_pattern := "/api/{id}"
    response_data := Json.obj [("ok", Json.bool false)]
    response_status_code := 200
    response_delay_ms := 0
    is_active := true
    created_at := 2 }

/-! ## Claims -/

/-- C1 (code bug): the spec (and the source's own comments, `* -> .*`) say a
bare trailing `*` matches any remainder of the path, but the translation
escapes `.` *after* rewriting `*` to `.*`, so `/api/posts/*` compiles to
`^/api/posts/\.*$` and matches only a (possibly empty) run of literal dots:
the spec's own example path is rejected, while `/api/posts/...` is
accepted. -/
theorem C1_wildcard_code_bug :
    matchUrlPattern "/api/posts/anything/nested/path" "/api/posts/*" = false ∧
    String.mk (toRegexBody "/api/posts/*") = "/api/posts/\\.*" ∧
    matchUrlPattern "/api/posts/..." "/api/posts/*" = true ∧
    matchUrlPattern "/api/posts/x" "/api/posts/*" = false := by
  exact ⟨rfl, rfl, rfl, rfl⟩

/-- C9: a mock-serving request with no resolved identity is halted by
`checkQuota('requests')` with 401 `AUTH_REQUIRED` before the controller runs:
the pipeline result is the error for every candidate set, path and body, so
no anonymous mock request is ever served. -/
theorem C9_anonymous_rejected (validator : Validator) (candidates : List MockEndpoint)
    (path method nowIso : String) (body : Option Json) (usageStore : List ApiUsage)
    (today processingMs : Int) :
    mockServingPipeline validator candidates none path method nowIso body usageStore
        today processingMs =
      .inl { message := "Authentication required to access mock endpoints"
             statusCode := 401
             code := "AUTH_REQUIRED" } := rfl

/-- C4 (code bug): the spec (and the source's own comment in
`getUserUsageStats`, "MOCK_ENDPOINT_NOT_FOUND requests are no longer
stored") says an unmatched request leaves the usage store unchanged, but
`trackUsage`'s wrapped `res.send` fires on the 404 response too and
`trackApiUsage` inserts unconditionally (`api_usage.endpoint_id` is
nullable): with an identified caller and an empty endpoint store the
pipeline returns the 404 payload *and* appends a usage row with a null
endpoint id and status 404 — which the monthly count used by `checkQuota`
then includes. -/
theorem C4_nomatch_usage_persisted :
    mockServingPipeline (fun _ _ => (true, [])) []
        (some { id := "user-1", requestCount := 3, endpointCount := 0, subscription := none })
        "/mock/missing" "GET" "2026-01-01T00:00:00Z" none [] 20260101 5 =
      .inr (.notFound (notFoundPayload "GET" "/missing" "2026-01-01T00:00:00Z"),
        [{ user_id := "user-1"
           endpoint_id := none
           method := "GET"
           url_pattern := "/mock/missing"
           response_status_code := some 404
           processing_time_ms := some 5
           date_key := 20260101 }]) := rfl

/-- C3 (code bug): the spec, the per-user unique index
`(user_id, method, url_pattern) WHERE is_active` and the migration's own
comment ("allows each user to have their own set of endpoints with the same
method/url_pattern") say the duplicate check is scoped to the owner, but
`createEndpoint` calls `findByMethodAndPattern` without a user: `user-b`'s
creation of a pattern that only `user-a` holds is rejected with the
duplicate-conflict error and no row is inserted, even though the owner-scoped
lookup finds nothing for `user-b`. -/
theorem C3_cross_owner_duplicate_rejected :
    (createEndpoint 10000 [c3Existing] (some "user-b") "e2" 200 c3Request).1.errors =
      [ValidationError.mk "url_pattern"
        "Active endpoint already exists for GET /api/things" none] ∧
    (createEndpoint 10000 [c3Existing] (some "user-b") "e2" 200 c3Request).2 = [c3Existing] ∧
    findByMethodAndPattern [c3Existing] "GET" "/api/things" (some "user-b") = none ∧
    c3Existing.user_id ≠ some "user-b" := by
  refine ⟨rfl, rfl, rfl, ?_⟩
  intro h
  simp [c3Existing] at h

/-- C6: when the matched endpoint carries a `request_schema` and the request
carries a (truthy) body the validator rejects, `handleMockRequest` answers
the fixed 400 validation payload carrying the per-field errors; the value is
built from the errors alone and is never the configured mock response (its
`headers` field alone distinguishes it). -/
theorem C6_schema_gate (validator : Validator) (candidates : List MockEndpoint)
    (request : MockRequest) (e : MockEndpoint) (schema body : Json)
    (errs : List ValidationError)
    (h1 : findBestMatch request.url request.method candidates = some e)
    (h2 : e.request_schema = some schema)
    (h3 : request.body = some body)
    (h4 : jsTruthy body = true)
    (h5 : validator body schema = (false, errs)) :
    handleMockRequest validator candidates request = some (validationFailureResponse errs) ∧
    (validationFailureResponse errs).status_code = 400 ∧
    (validationFailureResponse errs).data =
      Json.obj [("error", Json.str "Request validation failed"),
        ("details", Json.arr (errs.map jsonOfValidationError))] ∧
    validationFailureResponse errs ≠ mockSuccessResponse e := by
  refine ⟨?_, rfl, rfl, ?_⟩
  · unfold handleMockRequest
    rw [h1]
    simp only [h2, h3, h4, validateRequestBody, h5, if_true, Bool.not_false, if_pos]
  · intro hEq
    have := congrArg MockResponse.headers hEq
    simp [validationFailureResponse, mockSuccessResponse] at this

/-- Witness for C6 at concrete inputs. -/
theorem C6_schema_gate_witness :
    handleMockRequest c6Validator [c6Endpoint] c6Request =
      some (validationFailureResponse
        [ValidationError.mk "password" "must have required property password" none]) ∧
    (validationFailureResponse
        [ValidationError.mk "password" "must have required property password" none]).status_code
      = 400 ∧
    (validationFailureResponse
        [ValidationError.mk "password" "must have required property password" none]).data =
      Json.obj [("error", Json.str "Request validation failed"),
        ("details", Json.arr
          ([ValidationError.mk "password" "must have required property password" none].map
            jsonOfValidationError))] ∧
    validationFailureResponse
        [ValidationError.mk "password" "must have required property password" none]
      ≠ mockSuccessResponse c6Endpoint :=
  C6_schema_gate c6Validator [c6Endpoint] c6Request c6Endpoint
    (Json.obj
      [("type", Json.str "object"),
       ("required", Json.arr [Json.str "email", Json.str "password"])])
    (Json.obj [("email", Json.str "a@b.c")])
    [ValidationError.mk "password" "must have required property password" none]
    rfl rfl rfl rfl rfl

/-- C10: when the matched endpoint has a `request_schema` but the request's
body is absent (or JS-falsy), validation is skipped entirely — for every
validator the result is the configured mock response with the endpoint's own
status and data, never a 400 validation answer. -/
theorem C10_bodyless_skips_validation (validator : Validator)
    (candidates : List MockEndpoint) (request : MockRequest) (e : MockEndpoint)
    (schema : Json)
    (h1 : findBestMatch request.url request.method candidates = some e)
    (h2 : e.request_schema = some schema)
    (h3 : request.body = none ∨ ∃ b, request.body = some b ∧ jsTruthy b = false) :
    handleMockRequest validator candidates request = some (mockSuccessResponse e) ∧
    (mockSuccessResponse e).status_code = e.response_status_code ∧
    (mockSuccessResponse e).data = e.response_data := by
  refine ⟨?_, rfl, rfl⟩
  unfold handleMockRequest
  rw [h1]
  rcases h3 with h3 | ⟨b, h3, hb⟩
  · simp only [h2, h3]
  · simp only [h2, h3, hb, if_false, Bool.false_eq_true]

/-- Witness for C10 at concrete inputs. -/
theorem C10_bodyless_witness :
    handleMockRequest c6Validator [c6Endpoint] c10Request =
      some (mockSuccessResponse c6Endpoint) ∧
    (mockSuccessResponse c6Endpoint).status_code = c6Endpoint.response_status_code ∧
    (mockSuccessResponse c6Endpoint).data = c6Endpoint.response_data :=
  C10_bodyless_skips_validation c6Validator [c6Endpoint] c10Request c6Endpoint
    (Json.obj
      [("type", Json.str "object"),
       ("required", Json.arr [Json.str "email", Json.str "password"])])
    rfl rfl (Or.inl rfl)

/-- C7: a non-exempt identified caller whose month count sits one under the
effective `max_requests` passes `checkQuota('requests')`; at the limit the
check halts with 429 `QUOTA_EXCEEDED`; an exempt instance (profile fetch,
dashboard, API-key management use `checkQuotaExempt`) passes regardless of
the caller's usage. -/
theorem C7_quota_boundary (u : UserCtx) :
    (u.requestCount =
        (getUserUsageStats u.requestCount u.endpointCount u.subscription).max_requests - 1 →
      checkQuota .requests false (some u) = .proceed) ∧
    (u.requestCount =
        (getUserUsageStats u.requestCount u.endpointCount u.subscription).max_requests →
      checkQuota .requests false (some u) =
        .halt { message := "Monthly request limit exceeded (" ++
                  toString (getUserUsageStats u.requestCount u.endpointCount
                    u.subscription).max_requests ++ " requests)"
                statusCode := 429
                code := "QUOTA_EXCEEDED" }) ∧
    (∀ v, checkQuotaExempt v = .proceed) := by
  refine ⟨?_, ?_, fun v => rfl⟩
  · intro hc
    have hrem : (getUserUsageStats u.requestCount u.endpointCount
        u.subscription).requests_remaining = 1 := by
      simp only [getUserUsageStats] at hc ⊢
      omega
    simp [checkQuota, hrem]
  · intro hc
    have hrem : (getUserUsageStats u.requestCount u.endpointCount
        u.subscription).requests_remaining = 0 := by
      simp only [getUserUsageStats] at hc ⊢
      omega
    simp [checkQuota, hrem]

/-- Witness for C7 at concrete inputs (free default: `max_requests` 10). -/
theorem C7_quota_boundary_witness :
    checkQuota .requests false
        (some { id := "u", requestCount := 9, endpointCount := 0, subscription := none }) =
      .proceed ∧
    checkQuota .requests false
        (some { id := "u", requestCount := 10, endpointCount := 0, subscription := none }) =
      .halt { message := "Monthly request limit exceeded (" ++
                toString (getUserUsageStats 10 0 none).max_requests ++ " requests)"
              statusCode := 429
              code := "QUOTA_EXCEEDED" } ∧
    checkQuotaExempt none = .proceed :=
  ⟨(C7_quota_boundary _).1 rfl, (C7_quota_boundary _).2.1 rfl,
    (C7_quota_boundary ⟨"u", 0, 0, none⟩).2.2 none⟩

/-- C8: with zero active matching endpoints for the method and (stripped)
path, the whole pipeline reports not-found as an ordinary value:
`findBestMatch` is `null`, `handleMockRequest` is `null`, and the controller
responds 404 with the structured `MOCK_ENDPOINT_NOT_FOUND` payload — every
step is a total function, no exception path is taken. -/
theorem C8_nomatch_404 (validator : Validator) (candidates : List MockEndpoint)
    (path method nowIso : String) (body : Option Json) (processingMs : Int)
    (h : ∀ e ∈ candidates, ¬ isCandidate (stripMockPath path) method e) :
    findBestMatch (stripMockPath path) method candidates = none ∧
    handleMockRequest validator candidates
        { method := method, url := stripMockPath path, body := body } = none ∧
    (serveMockRequest validator candidates path method nowIso body processingMs).result =
      .notFound (notFoundPayload method (stripMockPath path) nowIso) := by
  have hfilter : candidates.filter (fun e =>
      e.method == method && e.is_active &&
        matchUrlPattern (stripMockPath path) e.url_pattern) = [] := by
    rw [List.filter_eq_nil_iff]
    intro e he hpe
    apply h e he
    simp only [Bool.and_eq_true, beq_iff_eq] at hpe
    exact ⟨hpe.1.1, hpe.1.2, hpe.2⟩
  have hbest : findBestMatch (stripMockPath path) method candidates = none := by
    unfold findBestMatch
    simp [hfilter]
  have hhandle : handleMockRequest validator candidates
      { method := method, url := stripMockPath path, body := body } = none := by
    unfold handleMockRequest
    rw [hbest]
  exact ⟨hbest, hhandle, by simp only [serveMockRequest]; rw [hhandle]⟩

/-- Witness for C8 at concrete inputs. -/
theorem C8_nomatch_404_witness :
    findBestMatch (stripMockPath "/mock/api/void") "GET" [c8Endpoint] = none ∧
    handleMockRequest (fun _ _ => (true, [])) [c8Endpoint]
        { method := "GET", url := stripMockPath "/mock/api/void", body := none } = none ∧
    (serveMockRequest (fun _ _ => (true, [])) [c8Endpoint] "/mock/api/void" "GET"
        "2026-01-01T00:00:00Z" none 3).result =
      .notFound (notFoundPayload "GET" (stripMockPath "/mock/api/void")
        "2026-01-01T00:00:00Z") :=
  C8_nomatch_404 (fun _ _ => (true, [])) [c8Endpoint] "/mock/api/void" "GET"
    "2026-01-01T00:00:00Z" none 3
    (by
      intro e he hc
      simp only [List.mem_singleton] at he
      subst he
      have : matchUrlPattern (stripMockPath "/mock/api/void") c8Endpoint.url_pattern = false := rfl
      rw [hc.2.2] at this
      exact Bool.noConfusion this)

/-- The comparator's non-positive half coincides with the spec's preference
order. -/
lemma endpointCmp_le_iff (url : String) (a b : MockEndpoint) :
    endpointCmp url a b ≤ 0 ↔ claimAtLeast url a b := by
  unfold endpointCmp claimAtLeast
  have hea : (url == a.url_pattern) = decide (a.url_pattern = url) := by
    rw [Bool.eq_iff_iff]
    simp only [beq_iff_eq, decide_eq_true_eq]
    exact eq_comm
  have heb : (url == b.url_pattern) = decide (b.url_pattern = url) := by
    rw [Bool.eq_iff_iff]
    simp only [beq_iff_eq, decide_eq_true_eq]
    exact eq_comm
  rw [hea, heb]
  by_cases ha : a.url_pattern = url <;> by_cases hb : b.url_pattern = url
  · have hlen : a.url_pattern.length = b.url_pattern.length := by rw [ha, hb]
    simp [ha, hb, hlen]
  · simp [ha, hb]
  · simp [ha, hb]
  · by_cases hl : a.url_pattern.length = b.url_pattern.length <;>
      simp [ha, hb, hl] <;> omega

/-- Totality of the spec's preference order. -/
lemma claimAtLeast_total (url : String) (a b : MockEndpoint) :
    claimAtLeast url a b ∨ claimAtLeast url b a := by
  unfold claimAtLeast
  by_cases ha : a.url_pattern = url <;> by_cases hb : b.url_pattern = url <;>
    simp [ha, hb] <;> omega

/-- Transitivity of the spec's preference order. -/
lemma claimAtLeast_trans (url : String) (a b c : MockEndpoint)
    (hab : claimAtLeast url a b) (hbc : claimAtLeast url b c) :
    claimAtLeast url a c := by
  unfold claimAtLeast at hab hbc ⊢
  by_cases ha : a.url_pattern = url <;> by_cases hb : b.url_pattern = url <;>
      by_cases hc : c.url_pattern = url <;>
    simp [ha, hb, hc] at hab hbc ⊢ <;> omega

/-- Head of an insertion sort under a total transitive relation: a member
that is related to every list element. -/
lemma insertionSort_head_min {α : Type} (r : α → α → Prop) [DecidableRel r]
    [IsTotal α r] [IsTrans α r] (l : List α) (e : α)
    (he : (List.insertionSort r l).head? = some e) :
    e ∈ l ∧ ∀ b ∈ l, r e b := by
  have hperm := List.perm_insertionSort r l
  have hsorted := List.sorted_insertionSort r l
  match hs : List.insertionSort r l with
  | [] => rw [hs] at he; cases he
  | h :: t =>
    rw [hs] at he hperm hsorted
    have heh : h = e := by cases he; rfl
    subst heh
    refine ⟨hperm.mem_iff.mp (List.mem_cons_self h t), ?_⟩
    intro b hb
    have hbmem : b ∈ h :: t := hperm.mem_iff.mpr hb
    rcases List.mem_cons.mp hbmem with hβ | hbt
    · subst hβ
      rcases IsTotal.total (r := r) b b with hr | hr <;> exact hr
    · exact List.rel_of_sorted_cons hsorted b hbt

/-- C2: whenever `findBestMatch` answers, the returned endpoint is one of the
given endpoints, is an active matching candidate of the request's method, and
is maximal under the spec's order (exact match first, then longer pattern,
then newer `created_at`) among all candidates; and whenever a candidate
exists, `findBestMatch` does answer. -/
theorem C2_findBestMatch_best (requestUrl method : String)
    (endpoints : List MockEndpoint) :
    (∀ e, findBestMatch requestUrl method endpoints = some e →
        e ∈ endpoints ∧ isCandidate requestUrl method e ∧
        ∀ b ∈ endpoints, isCandidate requestUrl method b →
          claimAtLeast requestUrl e b) ∧
    ((∃ b ∈ endpoints, isCandidate requestUrl method b) →
        ∃ e, findBestMatch requestUrl method endpoints = some e) := by
  classical
  haveI htotal : IsTotal MockEndpoint (fun a b => endpointCmp requestUrl a b ≤ 0) := by
    constructor
    intro a b
    rw [endpointCmp_le_iff, endpointCmp_le_iff]
    exact claimAtLeast_total requestUrl a b
  haveI htrans : IsTrans MockEndpoint (fun a b => endpointCmp requestUrl a b ≤ 0) := by
    constructor
    intro a b c hab hbc
    rw [endpointCmp_le_iff] at hab hbc ⊢
    exact claimAtLeast_trans requestUrl a b c hab hbc
  have hcand : ∀ x, (x ∈ endpoints.filter fun e =>
      e.method == method && e.is_active &&
        matchUrlPattern requestUrl e.url_pattern) ↔
      x ∈ endpoints ∧ isCandidate requestUrl method x := by
    intro x
    rw [List.mem_filter]
    simp [isCandidate, Bool.and_eq_true, beq_iff_eq, and_assoc]
  constructor
  · intro e he
    simp only [findBestMatch] at he
    by_cases hnil : (endpoints.filter fun e =>
        e.method == method && e.is_active &&
          matchUrlPattern requestUrl e.url_pattern).isEmpty
    · rw [if_pos hnil] at he; cases he
    · rw [if_neg hnil] at he
      obtain ⟨hmem, hall⟩ :=
        insertionSort_head_min (fun a b => endpointCmp requestUrl a b ≤ 0) _ e he
      have hme := (hcand e).mp hmem
      refine ⟨hme.1, hme.2, ?_⟩
      intro b hbe hbc
      have hbm := (hcand b).mpr ⟨hbe, hbc⟩
      exact (endpointCmp_le_iff requestUrl e b).mp (hall b hbm)
  · rintro ⟨b, hbe, hbc⟩
    have hbm := (hcand b).mpr ⟨hbe, hbc⟩
    simp only [findBestMatch]
    have hnil : (endpoints.filter fun e =>
        e.method == method && e.is_active &&
          matchUrlPattern requestUrl e.url_pattern).isEmpty = false := by
      rw [Bool.eq_false_iff]
      intro h0
      rw [List.isEmpty_iff] at h0
      rw [h0] at hbm
      cases hbm
    rw [if_neg (by simp [hnil])]
    have habs : ∀ l : List MockEndpoint,
        l.Perm (endpoints.filter fun e =>
          e.method == method && e.is_active &&
            matchUrlPattern requestUrl e.url_pattern) →
        ∃ e, l.head? = some e := by
      intro l hperm
      match l with
      | [] =>
        exfalso
        rw [hperm.nil_eq.symm] at hbm
        cases hbm
      | h :: t => exact ⟨h, rfl⟩
    exact habs _ (List.perm_insertionSort _ _)

/-- Witness for C2 at concrete inputs: the exact pattern beats the newer
parametrized one. -/
theorem C2_findBestMatch_best_witness :
    findBestMatch "/api/users" "GET" [c2Param, c2Exact] = some c2Exact ∧
    c2Exact ∈ [c2Param, c2Exact] ∧
    isCandidate "/api/users" "GET" c2Exact ∧
    claimAtLeast "/api/users" c2Exact c2Param := by
  have h := (C2_findBestMatch_best "/api/users" "GET" [c2Param, c2Exact]).1 c2Exact rfl
  exact ⟨rfl, h.1, h.2.1,
    h.2.2 c2Param (by simp) ⟨rfl, rfl, rfl⟩⟩

/-! ## Lemmas for the parameter-extraction claim -/

/-- Rebuilding a string from its character list is the identity. -/
lemma mk_toList (s : String) : String.mk s.toList = s := rfl

/-- A plain character is none of the characters the scanners and the parser
treat specially. -/
lemma plainChar_ne {c : Char} (hc : plainChar c = true) (d : Char)
    (hd : plainChar d = false) : c ≠ d := by
  intro h
  rw [h, hd] at hc
  cases hc

/-- The brace-name scanner ignores a leading character other than `{`. -/
lemma braceNamesGo_skip {c : Char} (hc : c ≠ '{') (rest : List Char) :
    braceNamesGo none (c :: rest) = braceNamesGo none rest := by
  simp [braceNamesGo, hc]

/-- The brace-name scanner ignores a `{`-free prefix. -/
lemma braceNamesGo_skip_append {l : List Char} (hl : ∀ c ∈ l, c ≠ '{')
    (rest : List Char) :
    braceNamesGo none (l ++ rest) = braceNamesGo none rest := by
  induction l with
  | nil => rfl
  | cons c l ih =>
    rw [List.cons_append, braceNamesGo_skip (hl c (by simp)),
      ih fun c hc => hl c (by simp [hc])]

/-- Inside a brace whose body avoids `}`, the scanner accumulates the body
and emits it at the closing `}`. -/
lemma braceNamesGo_inside {n : List Char} (hn : ∀ c ∈ n, c ≠ '}') :
    ∀ acc rest, acc ≠ [] ∨ n ≠ [] →
    braceNamesGo (some acc) (n ++ '}' :: rest) =
      String.mk (acc.reverse ++ n) :: braceNamesGo none rest := by
  induction n with
  | nil =>
    intro acc rest hne
    have hacc : acc ≠ [] := by
      rcases hne with h | h
      · exact h
      · exact absurd rfl h
    have : acc.isEmpty = false := by
      cases acc with
      | nil => exact absurd rfl hacc
      | cons _ _ => rfl
    simp [braceNamesGo, this]
  | cons c n ih =>
    intro acc rest hne
    have hc : c ≠ '}' := hn c (by simp)
    rw [List.cons_append]
    rw [show braceNamesGo (some acc) (c :: (n ++ '}' :: rest)) =
        braceNamesGo (some (c :: acc)) (n ++ '}' :: rest) by
      simp [braceNamesGo, hc]]
    rw [ih (fun d hd => hn d (by simp [hd])) (c :: acc) rest (Or.inl (by simp))]
    simp

/-- One full `{name}` hit of the brace-name scanner. -/
lemma braceNamesGo_brace {n : List Char} (hne : n ≠ []) (hn : ∀ c ∈ n, c ≠ '}')
    (rest : List Char) :
    braceNamesGo none ('{' :: (n ++ '}' :: rest)) =
      String.mk n :: braceNamesGo none rest := by
  rw [show braceNamesGo none ('{' :: (n ++ '}' :: rest)) =
      braceNamesGo (some []) (n ++ '}' :: rest) by simp [braceNamesGo]]
  rw [braceNamesGo_inside hn [] rest (Or.inr hne)]
  simp

/-- The brace-name scan of a rendered pattern lists exactly its `{name}`
parameters, in order. -/
lemma braceNames_render (segs : List SegV) (hwf : ∀ sg ∈ segs, segWF sg) :
    braceNamesGo none (renderPattern segs) = braceNamesOf segs := by
  induction segs with
  | nil => rfl
  | cons sg segs ih =>
    have hsg := hwf sg (by simp)
    have ih' := ih fun s hs => hwf s (by simp [hs])
    have hrp : renderPattern (sg :: segs) =
        '/' :: (segPatChars sg ++ renderPattern segs) := by
      simp [renderPattern]
    rw [hrp, braceNamesGo_skip (by decide)]
    cases sg with
    | lit s =>
      obtain ⟨hne, hpl⟩ := hsg
      have heq : segPatChars (.lit s) ++ renderPattern segs =
          s.toList ++ renderPattern segs := rfl
      rw [heq, braceNamesGo_skip_append
        (fun c hc => plainChar_ne (hpl c hc) '{' (by decide)), ih']
      rfl
    | brace n v =>
      obtain ⟨⟨hne, hpl⟩, _⟩ := hsg
      have heq : segPatChars (.brace n v) ++ renderPattern segs =
          '{' :: (n.toList ++ '}' :: renderPattern segs) := by
        simp [segPatChars]
      rw [heq, braceNamesGo_brace hne
        (fun c hc => plainChar_ne (hpl c hc) '}' (by decide)), ih']
      rfl
    | colon n v =>
      obtain ⟨⟨hne, hpl⟩, _⟩ := hsg
      have heq : segPatChars (.colon n v) ++ renderPattern segs =
          ':' :: (n.toList ++ renderPattern segs) := by
        simp [segPatChars]
      rw [heq, braceNamesGo_skip (by decide)]
      rw [braceNamesGo_skip_append
        (fun c hc => plainChar_ne (hpl c hc) '{' (by decide)), ih']
      rfl

/-- The colon-name scanner ignores a leading character other than `:`. -/
lemma colonNamesGo_skip {c : Char} (hc : c ≠ ':') (rest : List Char) :
    colonNamesGo none (c :: rest) = colonNamesGo none rest := by
  simp [colonNamesGo, hc]

/-- The colon-name scanner ignores a `:`-free prefix. -/
lemma colonNamesGo_skip_append {l : List Char} (hl : ∀ c ∈ l, c ≠ ':')
    (rest : List Char) :
    colonNamesGo none (l ++ rest) = colonNamesGo none rest := by
  induction l with
  | nil => rfl
  | cons c l ih =>
    rw [List.cons_append, colonNamesGo_skip (hl c (by simp)),
      ih fun c hc => hl c (by simp [hc])]

/-- Inside a `:`-run that stops at a `/`. -/
lemma colonNamesGo_inside_slash {n : List Char} (hn : ∀ c ∈ n, c ≠ '/') :
    ∀ acc rest, acc ≠ [] ∨ n ≠ [] →
    colonNamesGo (some acc) (n ++ '/' :: rest) =
      String.mk (acc.reverse ++ n) :: colonNamesGo none rest := by
  induction n with
  | nil =>
    intro acc rest hne
    have hacc : acc ≠ [] := by
      rcases hne with h | h
      · exact h
      · exact absurd rfl h
    have : acc.isEmpty = false := by
      cases acc with
      | nil => exact absurd rfl hacc
      | cons _ _ => rfl
    simp [colonNamesGo, this]
  | cons c n ih =>
    intro acc rest hne
    have hc : c ≠ '/' := hn c (by simp)
    rw [List.cons_append]
    rw [show colonNamesGo (some acc) (c :: (n ++ '/' :: rest)) =
        colonNamesGo (some (c :: acc)) (n ++ '/' :: rest) by
      simp [colonNamesGo, hc]]
    rw [ih (fun d hd => hn d (by simp [hd])) (c :: acc) rest (Or.inl (by simp))]
    simp

/-- Inside a `:`-run that reaches end of input. -/
lemma colonNamesGo_inside_eof {n : List Char} (hn : ∀ c ∈ n, c ≠ '/') :
    ∀ acc, acc ≠ [] ∨ n ≠ [] →
    colonNamesGo (some acc) n = [String.mk (acc.reverse ++ n)] := by
  induction n with
  | nil =>
    intro acc hne
    have hacc : acc ≠ [] := by
      rcases hne with h | h
      · exact h
      · exact absurd rfl h
    have : acc.isEmpty = false := by
      cases acc with
      | nil => exact absurd rfl hacc
      | cons _ _ => rfl
    simp [colonNamesGo, this]
  | cons c n ih =>
    intro acc hne
    have hc : c ≠ '/' := hn c (by simp)
    rw [show colonNamesGo (some acc) (c :: n) =
        colonNamesGo (some (c :: acc)) n by simp [colonNamesGo, hc]]
    rw [ih (fun d hd => hn d (by simp [hd])) (c :: acc) (Or.inl (by simp))]
    simp

/-- The colon-name scan of a rendered pattern lists exactly its `:name`
parameters, in order. -/
lemma colonNames_render (segs : List SegV) (hwf : ∀ sg ∈ segs, segWF sg) :
    colonNamesGo none (renderPattern segs) = colonNamesOf segs := by
  induction segs with
  | nil => rfl
  | cons sg segs ih =>
    have hsg := hwf sg (by simp)
    have ih' := ih fun s hs => hwf s (by simp [hs])
    have hrp : renderPattern (sg :: segs) =
        '/' :: (segPatChars sg ++ renderPattern segs) := by
      simp [renderPattern]
    rw [hrp, colonNamesGo_skip (by decide)]
    cases sg with
    | lit s =>
      obtain ⟨hne, hpl⟩ := hsg
      have heq : segPatChars (.lit s) ++ renderPattern segs =
          s.toList ++ renderPattern segs := rfl
      rw [heq, colonNamesGo_skip_append
        (fun c hc => plainChar_ne (hpl c hc) ':' (by decide)), ih']
      rfl
    | brace n v =>
      obtain ⟨⟨hne, hpl⟩, _⟩ := hsg
      have heq : segPatChars (.brace n v) ++ renderPattern segs =
          '{' :: ((n.toList ++ ['}']) ++ renderPattern segs) := by
        simp [segPatChars]
      rw [heq, colonNamesGo_skip (by decide)]
      rw [colonNamesGo_skip_append (l := n.toList ++ ['}']) ?hl, ih']
      case hl =>
        intro c hc
        rcases List.mem_append.mp hc with hc | hc
        · exact plainChar_ne (hpl c hc) ':' (by decide)
        · simp at hc
          rw [hc]
          decide
      rfl
    | colon n v =>
      obtain ⟨⟨hne, hpl⟩, _⟩ := hsg
      have hn' : ∀ c ∈ n.toList, c ≠ '/' :=
        fun c hc => plainChar_ne (hpl c hc) '/' (by decide)
      have heq : segPatChars (.colon n v) ++ renderPattern segs =
          ':' :: (n.toList ++ renderPattern segs) := by
        simp [segPatChars]
      rw [heq]
      rw [show colonNamesGo none (':' :: (n.toList ++ renderPattern segs)) =
          colonNamesGo (some []) (n.toList ++ renderPattern segs) by
        simp [colonNamesGo]]
      cases hsegs : segs with
      | nil =>
        rw [show renderPattern [] = [] from rfl, List.append_nil]
        rw [colonNamesGo_inside_eof hn' [] (Or.inr hne)]
        simp [colonNamesOf]
      | cons sg' segs' =>
        have hcons : renderPattern (sg' :: segs') =
            '/' :: (segPatChars sg' ++ renderPattern segs') := by
          simp [renderPattern]
        rw [hcons]
        rw [colonNamesGo_inside_slash hn' [] _ (Or.inr hne)]
        have hsl : colonNamesGo none (segPatChars sg' ++ renderPattern segs') =
            colonNamesGo none (renderPattern (sg' :: segs')) := by
          rw [hcons, colonNamesGo_skip (by decide)]
        rw [hsl, ← hsegs, ih']
        simp [colonNamesOf, mk_toList]

/-- The brace replacement copies a leading character other than `{`. -/
lemma replaceBracesGo_skip {c : Char} (hc : c ≠ '{') (rest : List Char) :
    replaceBracesGo none (c :: rest) = c :: replaceBracesGo none rest := by
  simp [replaceBracesGo, hc]

/-- The brace replacement copies a `{`-free prefix. -/
lemma replaceBracesGo_skip_append {l : List Char} (hl : ∀ c ∈ l, c ≠ '{')
    (rest : List Char) :
    replaceBracesGo none (l ++ rest) = l ++ replaceBracesGo none rest := by
  induction l with
  | nil => rfl
  | cons c l ih =>
    rw [List.cons_append, replaceBracesGo_skip (hl c (by simp)),
      ih fun c hc => hl c (by simp [hc]), List.cons_append]

/-- Inside a brace whose body avoids `}`, the replacement emits the group. -/
lemma replaceBracesGo_inside {n : List Char} (hn : ∀ c ∈ n, c ≠ '}') :
    ∀ acc rest, acc ≠ [] ∨ n ≠ [] →
    replaceBracesGo (some acc) (n ++ '}' :: rest) =
      "([^/]+)".toList ++ replaceBracesGo none rest := by
  induction n with
  | nil =>
    intro acc rest hne
    have hacc : acc ≠ [] := by
      rcases hne with h | h
      · exact h
      · exact absurd rfl h
    have : acc.isEmpty = false := by
      cases acc with
      | nil => exact absurd rfl hacc
      | cons _ _ => rfl
    simp [replaceBracesGo, this]
  | cons c n ih =>
    intro acc rest hne
    have hc : c ≠ '}' := hn c (by simp)
    rw [List.cons_append]
    rw [show replaceBracesGo (some acc) (c :: (n ++ '}' :: rest)) =
        replaceBracesGo (some (c :: acc)) (n ++ '}' :: rest) by
      simp [replaceBracesGo, hc]]
    exact ih (fun d hd => hn d (by simp [hd])) (c :: acc) rest (Or.inl (by simp))

/-- One full `{name}` hit of the brace replacement. -/
lemma replaceBracesGo_brace {n : List Char} (hne : n ≠ []) (hn : ∀ c ∈ n, c ≠ '}')
    (rest : List Char) :
    replaceBracesGo none ('{' :: (n ++ '}' :: rest)) =
      "([^/]+)".toList ++ replaceBracesGo none rest := by
  rw [show replaceBracesGo none ('{' :: (n ++ '}' :: rest)) =
      replaceBracesGo (some []) (n ++ '}' :: rest) by simp [replaceBracesGo]]
  exact replaceBracesGo_inside hn [] rest (Or.inr hne)

/-- The brace replacement turns a rendered pattern into the intermediate
text: `{name}`s become groups, everything else is copied. -/
lemma replaceBraces_render (segs : List SegV) (hwf : ∀ sg ∈ segs, segWF sg) :
    replaceBracesGo none (renderPattern segs) = renderMid segs := by
  induction segs with
  | nil => rfl
  | cons sg segs ih =>
    have hsg := hwf sg (by simp)
    have ih' := ih fun s hs => hwf s (by simp [hs])
    have hrp : renderPattern (sg :: segs) =
        '/' :: (segPatChars sg ++ renderPattern segs) := by
      simp [renderPattern]
    have hrm : renderMid (sg :: segs) =
        '/' :: (segMidChars sg ++ renderMid segs) := by
      simp [renderMid]
    rw [hrp, hrm, replaceBracesGo_skip (by decide)]
    cases sg with
    | lit s =>
      obtain ⟨hne, hpl⟩ := hsg
      have heq : segPatChars (.lit s) ++ renderPattern segs =
          s.toList ++ renderPattern segs := rfl
      rw [heq, replaceBracesGo_skip_append
        (fun c hc => plainChar_ne (hpl c hc) '{' (by decide)), ih']
      rfl
    | brace n v =>
      obtain ⟨⟨hne, hpl⟩, _⟩ := hsg
      have heq : segPatChars (.brace n v) ++ renderPattern segs =
          '{' :: (n.toList ++ '}' :: renderPattern segs) := by
        simp [segPatChars]
      rw [heq, replaceBracesGo_brace hne
        (fun c hc => plainChar_ne (hpl c hc) '}' (by decide)), ih']
      rfl
    | colon n v =>
      obtain ⟨⟨hne, hpl⟩, _⟩ := hsg
      have heq : segPatChars (.colon n v) ++ renderPattern segs =
          ':' :: (n.toList ++ renderPattern segs) := by
        simp [segPatChars]
      rw [heq, replaceBracesGo_skip (by decide)]
      rw [replaceBracesGo_skip_append
        (fun c hc => plainChar_ne (hpl c hc) '{' (by decide)), ih']
      rfl

/-- The colon replacement copies a leading character other than `:`. -/
lemma replaceColonsGo_skip {c : Char} (hc : c ≠ ':') (rest : List Char) :
    replaceColonsGo none (c :: rest) = c :: replaceColonsGo none rest := by
  simp [replaceColonsGo, hc]

/-- The colon replacement copies a `:`-free prefix. -/
lemma replaceColonsGo_skip_append {l : List Char} (hl : ∀ c ∈ l, c ≠ ':')
    (rest : List Char) :
    replaceColonsGo none (l ++ rest) = l ++ replaceColonsGo none rest := by
  induction l with
  | nil => rfl
  | cons c l ih =>
    rw [List.cons_append, replaceColonsGo_skip (hl c (by simp)),
      ih fun c hc => hl c (by simp [hc]), List.cons_append]

/-- Inside a `:`-run that stops at a `/`, the replacement emits the group
and copies the `/`. -/
lemma replaceColonsGo_inside_slash {n : List Char} (hn : ∀ c ∈ n, c ≠ '/') :
    ∀ acc rest, acc ≠ [] ∨ n ≠ [] →
    replaceColonsGo (some acc) (n ++ '/' :: rest) =
      "([^/]+)".toList ++ '/' :: replaceColonsGo none rest := by
  induction n with
  | nil =>
    intro acc rest hne
    have hacc : acc ≠ [] := by
      rcases hne with h | h
      · exact h
      · exact absurd rfl h
    have : acc.isEmpty = false := by
      cases acc with
      | nil => exact absurd rfl hacc
      | cons _ _ => rfl
    simp [replaceColonsGo, this]
  | cons c n ih =>
    intro acc rest hne
    have hc : c ≠ '/' := hn c (by simp)
    rw [List.cons_append]
    rw [show replaceColonsGo (some acc) (c :: (n ++ '/' :: rest)) =
        replaceColonsGo (some (c :: acc)) (n ++ '/' :: rest) by
      simp [replaceColonsGo, hc]]
    exact ih (fun d hd => hn d (by simp [hd])) (c :: acc) rest (Or.inl (by simp))

/-- Inside a `:`-run that reaches end of input. -/
lemma replaceColonsGo_inside_eof {n : List Char} (hn : ∀ c ∈ n, c ≠ '/') :
    ∀ acc, acc ≠ [] ∨ n ≠ [] →
    replaceColonsGo (some acc) n = "([^/]+)".toList := by
  induction n with
  | nil =>
    intro acc hne
    have hacc : acc ≠ [] := by
      rcases hne with h | h
      · exact h
      · exact absurd rfl h
    have : acc.isEmpty = false := by
      cases acc with
      | nil => exact absurd rfl hacc
      | cons _ _ => rfl
    simp [replaceColonsGo, this]
  | cons c n ih =>
    intro acc hne
    have hc : c ≠ '/' := hn c (by simp)
    rw [show replaceColonsGo (some acc) (c :: n) =
        replaceColonsGo (some (c :: acc)) n by simp [replaceColonsGo, hc]]
    exact ih (fun d hd => hn d (by simp [hd])) (c :: acc) (Or.inl (by simp))

/-- The colon replacement turns the intermediate text into the final
capturing regex: `:name`s become groups, everything else is copied. -/
lemma replaceColons_renderMid (segs : List SegV) (hwf : ∀ sg ∈ segs, segWF sg) :
    replaceColonsGo none (renderMid segs) = renderRx segs := by
  induction segs with
  | nil => rfl
  | cons sg segs ih =>
    have hsg := hwf sg (by simp)
    have ih' := ih fun s hs => hwf s (by simp [hs])
    have hrm : renderMid (sg :: segs) =
        '/' :: (segMidChars sg ++ renderMid segs) := by
      simp [renderMid]
    have hrx : renderRx (sg :: segs) =
        '/' :: (segRxChars sg ++ renderRx segs) := by
      simp [renderRx]
    rw [hrm, hrx, replaceColonsGo_skip (by decide)]
    cases sg with
    | lit s =>
      obtain ⟨hne, hpl⟩ := hsg
      have heq : segMidChars (.lit s) ++ renderMid segs =
          s.toList ++ renderMid segs := rfl
      rw [heq, replaceColonsGo_skip_append
        (fun c hc => plainChar_ne (hpl c hc) ':' (by decide)), ih']
      rfl
    | brace n v =>
      have heq : segMidChars (.brace n v) ++ renderMid segs =
          "([^/]+)".toList ++ renderMid segs := rfl
      have hgc : ∀ c ∈ "([^/]+)".toList, c ≠ ':' := by decide
      rw [heq, replaceColonsGo_skip_append hgc, ih']
      rfl
    | colon n v =>
      obtain ⟨⟨hne, hpl⟩, _⟩ := hsg
      have hn' : ∀ c ∈ n.toList, c ≠ '/' :=
        fun c hc => plainChar_ne (hpl c hc) '/' (by decide)
      have heq : segMidChars (.colon n v) ++ renderMid segs =
          ':' :: (n.toList ++ renderMid segs) := by
        simp [segMidChars]
      rw [heq]
      rw [show replaceColonsGo none (':' :: (n.toList ++ renderMid segs)) =
          replaceColonsGo (some []) (n.toList ++ renderMid segs) by
        simp [replaceColonsGo]]
      cases hsegs : segs with
      | nil =>
        rw [show renderMid [] = [] from rfl, List.append_nil]
        rw [replaceColonsGo_inside_eof hn' [] (Or.inr hne)]
        simp [renderRx, segRxChars]
      | cons sg' segs' =>
        have hcons : renderMid (sg' :: segs') =
            '/' :: (segMidChars sg' ++ renderMid segs') := by
          simp [renderMid]
        rw [hcons]
        rw [replaceColonsGo_inside_slash hn' [] _ (Or.inr hne)]
        have hsl : '/' :: replaceColonsGo none (segMidChars sg' ++ renderMid segs') =
            renderRx (sg' :: segs') := by
          rw [← replaceColonsGo_skip (by decide), ← hcons, ← hsegs]
          exact ih'
        rw [hsl]
        rfl

/-- `readQuant` is the identity when the text carries no leading
quantifier. -/
lemma readQuant_id {rest : List Char} (h : quantFree rest) :
    readQuant rest = (RQuant.one, rest) := by
  cases rest with
  | nil => rfl
  | cons c r =>
    obtain ⟨h1, h2, h3⟩ := h
    simp [readQuant, h1, h2, h3]

/-- Plain-or-slash characters are not special to the parser. -/
lemma plain_or_slash_facts {c : Char} (hc : plainChar c = true ∨ c = '/') :
    c ≠ ')' ∧
    ¬(c = '*' ∨ c = '+' ∨ c = '?' ∨ c = '^' ∨ c = '$' ∨ c = '|' ∨ c = '{' ∨
      c = '}' ∨ c = ']') ∧
    c ≠ '(' ∧ c ≠ '\\' ∧ c ≠ '.' ∧ c ≠ '[' := by
  rcases hc with h | h
  · refine ⟨plainChar_ne h ')' (by decide), ?_, plainChar_ne h '(' (by decide),
      plainChar_ne h '\\' (by decide), plainChar_ne h '.' (by decide),
      plainChar_ne h '[' (by decide)⟩
    rintro (rfl | rfl | rfl | rfl | rfl | rfl | rfl | rfl | rfl) <;>
      exact absurd h (by decide)
  · subst h
    refine ⟨by decide, by decide, by decide, by decide, by decide, by decide⟩

/-- Parsing one plain character piece. -/
lemma parseRxAux_cons_plain {c : Char} (hc : plainChar c = true ∨ c = '/')
    (fuel : Nat) {rest : List Char} (hq : quantFree rest) :
    parseRxAux (fuel + 1) (c :: rest) =
      (parseRxAux fuel rest).map fun pr =>
        (RPiece.simple ⟨.chr c, .one⟩ :: pr.1, pr.2) := by
  obtain ⟨h1, h2, h3, h4, h5, h6⟩ := plain_or_slash_facts hc
  simp only [parseRxAux, if_neg h1, if_neg h2, if_neg h3, parseAtom,
    if_neg h4, if_neg h5, if_neg h6, readQuant_id hq]
  cases parseRxAux fuel rest <;> simp

/-- Parsing the capturing-group chunk `([^/]+)` at the very end of the
regex. -/
lemma parseRxAux_group_nil (k : Nat) :
    parseRxAux (k + 3) ['(', '[', '^', '/', ']', '+', ')'] =
      some ([RPiece.group [⟨.cls true ['/'], .plus⟩]], []) := rfl

/-- Parsing the capturing-group chunk `([^/]+)` followed by a `/`. -/
lemma parseRxAux_group_slash (k : Nat) (r : List Char) (ps : List RPiece)
    (restF : List Char)
    (hP : parseRxAux (k + 2) ('/' :: r) = some (ps, restF)) :
    parseRxAux (k + 3) ('(' :: '[' :: '^' :: '/' :: ']' :: '+' :: ')' :: '/' :: r) =
      some (RPiece.group [⟨.cls true ['/'], .plus⟩] :: ps, restF) := by
  have h0 : parseRxAux (k + 3)
      ('(' :: '[' :: '^' :: '/' :: ']' :: '+' :: ')' :: '/' :: r) =
      match parseRxAux (k + 2) ('/' :: r) with
      | none => none
      | some (ps, restF) =>
        some (RPiece.group [⟨.cls true ['/'], .plus⟩] :: ps, restF) := rfl
  rw [h0, hP]

/-- Parsing a run of plain characters. -/
lemma parseRxAux_run {l : List Char}
    (hl : ∀ c ∈ l, plainChar c = true ∨ c = '/') :
    ∀ fuel (rest : List Char), quantFree rest →
    parseRxAux (fuel + l.length) (l ++ rest) =
      (parseRxAux fuel rest).map fun pr =>
        ((l.map fun c => RPiece.simple ⟨.chr c, .one⟩) ++ pr.1, pr.2) := by
  induction l with
  | nil =>
    intro fuel rest hq
    simp only [List.length_nil, Nat.add_zero, List.nil_append, List.map_nil]
    cases hP : parseRxAux fuel rest <;> simp [hP]
  | cons c l ih =>
    intro fuel rest hq
    have hc := hl c (by simp)
    have hql : quantFree (l ++ rest) := by
      cases l with
      | nil => exact hq
      | cons d l' =>
        have hd := hl d (by simp)
        rcases hd with hd | hd
        · exact ⟨plainChar_ne hd '*' (by decide), plainChar_ne hd '+' (by decide),
            plainChar_ne hd '?' (by decide)⟩
        · subst hd
          exact ⟨by decide, by decide, by decide⟩
    rw [List.cons_append,
      show fuel + (c :: l).length = (fuel + l.length) + 1 by
        simp [List.length_cons]; omega,
      parseRxAux_cons_plain hc (fuel + l.length) hql,
      ih (fun d hd => hl d (by simp [hd])) fuel rest hq]
    cases hP : parseRxAux fuel rest <;> simp [hP]

/-- The rendered regex never starts with a quantifier. -/
lemma quantFree_renderRx (segs : List SegV) : quantFree (renderRx segs) := by
  cases segs with
  | nil => trivial
  | cons sg segs =>
    have : renderRx (sg :: segs) =
        '/' :: (segRxChars sg ++ renderRx segs) := by
      simp [renderRx]
    rw [this]
    exact ⟨by decide, by decide, by decide⟩

/-- Parsing the rendered regex of a segment pattern: each `/` and literal
character becomes one piece, each parameter one group. -/
lemma parseRxAux_render (segs : List SegV) (hwf : ∀ sg ∈ segs, segWF sg) :
    ∀ f, 2 ≤ f →
    parseRxAux (f + (renderPieces segs).length) (renderRx segs) =
      some (renderPieces segs, []) := by
  induction segs with
  | nil =>
    intro f hf
    obtain ⟨f', rfl⟩ : ∃ f', f = f' + 1 := ⟨f - 1, by omega⟩
    rfl
  | cons sg segs ih =>
    intro f hf
    have hsg := hwf sg (by simp)
    have ih' := ih (fun s hs => hwf s (by simp [hs])) f hf
    have hqrx : quantFree (renderRx segs) := quantFree_renderRx segs
    have hshape : renderRx (sg :: segs) =
        '/' :: (segRxChars sg ++ renderRx segs) := by
      simp [renderRx]
    have hpieces : renderPieces (sg :: segs) =
        RPiece.simple ⟨.chr '/', .one⟩ :: (segPieces sg ++ renderPieces segs) := by
      simp [renderPieces]
    rw [hshape, hpieces]
    cases sg with
    | lit s =>
      obtain ⟨hne, hpl⟩ := hsg
      rw [show f + (RPiece.simple ⟨SAtom.chr '/', RQuant.one⟩ ::
          (segPieces (.lit s) ++ renderPieces segs)).length =
          ((f + (renderPieces segs).length) + s.toList.length) + 1 by
        simp [segPieces]; omega]
      rw [parseRxAux_cons_plain (Or.inr rfl) _
        (by
          cases hs : s.toList with
          | nil => exact absurd hs hne
          | cons d l' =>
            have hd : plainChar d = true := hpl d (by rw [hs]; simp)
            have hsd : s.data = d :: l' := hs
            have : segRxChars (.lit s) ++ renderRx segs =
                d :: (l' ++ renderRx segs) := by
              simp [segRxChars, hsd]
            rw [this]
            exact ⟨plainChar_ne hd '*' (by decide), plainChar_ne hd '+' (by decide),
              plainChar_ne hd '?' (by decide)⟩)]
      rw [show segRxChars (.lit s) ++ renderRx segs =
          s.toList ++ renderRx segs from rfl]
      rw [parseRxAux_run (fun c hc => Or.inl (hpl c hc)) _ _ hqrx]
      rw [ih']
      simp [segPieces]
    | brace n v =>
      rw [show f + (RPiece.simple ⟨SAtom.chr '/', RQuant.one⟩ ::
          (segPieces (.brace n v) ++ renderPieces segs)).length =
          (((f + (renderPieces segs).length) - 2) + 3) + 1 by
        simp [segPieces]; omega]
      rw [parseRxAux_cons_plain (Or.inr rfl) _
        (by
          have : segRxChars (.brace n v) ++ renderRx segs =
              '(' :: ('[' :: '^' :: '/' :: ']' :: '+' :: ')' :: renderRx segs) := rfl
          rw [this]
          exact ⟨by decide, by decide, by decide⟩)]
      rw [show segRxChars (.brace n v) ++ renderRx segs =
          '(' :: '[' :: '^' :: '/' :: ']' :: '+' :: ')' :: renderRx segs from rfl]
      cases hsegs : segs with
      | nil =>
        rw [show (')' : Char) :: renderRx [] = [')'] from rfl]
        rw [parseRxAux_group_nil ((f + (renderPieces ([] : List SegV)).length) - 2)]
        simp [segPieces, renderPieces]
      | cons sg' segs' =>
        rw [hsegs] at ih'
        have hcons : renderRx (sg' :: segs') =
            '/' :: (segRxChars sg' ++ renderRx segs') := by
          simp [renderRx]
        rw [hcons]
        rw [parseRxAux_group_slash _ _ (renderPieces (sg' :: segs')) [] ?hPb]
        case hPb =>
          rw [show ((f + (renderPieces (sg' :: segs')).length) - 2) + 2 =
              f + (renderPieces (sg' :: segs')).length by omega]
          rw [← hcons]
          exact ih'
        simp [segPieces]
    | colon n v =>
      rw [show f + (RPiece.simple ⟨SAtom.chr '/', RQuant.one⟩ ::
          (segPieces (.colon n v) ++ renderPieces segs)).length =
          (((f + (renderPieces segs).length) - 2) + 3) + 1 by
        simp [segPieces]; omega]
      rw [parseRxAux_cons_plain (Or.inr rfl) _
        (by
          have : segRxChars (.colon n v) ++ renderRx segs =
              '(' :: ('[' :: '^' :: '/' :: ']' :: '+' :: ')' :: renderRx segs) := rfl
          rw [this]
          exact ⟨by decide, by decide, by decide⟩)]
      rw [show segRxChars (.colon n v) ++ renderRx segs =
          '(' :: '[' :: '^' :: '/' :: ']' :: '+' :: ')' :: renderRx segs from rfl]
      cases hsegs : segs with
      | nil =>
        rw [show (')' : Char) :: renderRx [] = [')'] from rfl]
        rw [parseRxAux_group_nil ((f + (renderPieces ([] : List SegV)).length) - 2)]
        simp [segPieces, renderPieces]
      | cons sg' segs' =>
        rw [hsegs] at ih'
        have hcons : renderRx (sg' :: segs') =
            '/' :: (segRxChars sg' ++ renderRx segs') := by
          simp [renderRx]
        rw [hcons]
        rw [parseRxAux_group_slash _ _ (renderPieces (sg' :: segs')) [] ?hPc]
        case hPc =>
          rw [show ((f + (renderPieces (sg' :: segs')).length) - 2) + 2 =
              f + (renderPieces (sg' :: segs')).length by omega]
          rw [← hcons]
          exact ih'
        simp [segPieces]

/-- Piece counts never exceed character counts, with slack 6 as soon as one
parameter occurs (a parameter is 2 pieces but 8 characters). -/
lemma renderPieces_length (segs : List SegV) :
    (renderPieces segs).length ≤ (renderRx segs).length ∧
    ((∃ sg ∈ segs, isParamSeg sg) →
      (renderPieces segs).length + 6 ≤ (renderRx segs).length) := by
  induction segs with
  | nil =>
    constructor
    · simp [renderPieces, renderRx]
    · rintro ⟨sg, hsg, _⟩
      cases hsg
  | cons sg segs ih =>
    obtain ⟨ih1, ih2⟩ := ih
    have h1 : (renderPieces (sg :: segs)).length =
        1 + (segPieces sg).length + (renderPieces segs).length := by
      simp [renderPieces]
      omega
    have h2 : (renderRx (sg :: segs)).length =
        1 + (segRxChars sg).length + (renderRx segs).length := by
      simp [renderRx]
      omega
    cases sg with
    | lit s =>
      have hp : (segPieces (.lit s)).length = s.toList.length := by
        simp [segPieces]
      have hc : (segRxChars (.lit s)).length = s.toList.length := rfl
      constructor
      · rw [h1, h2, hp, hc]; omega
      · rintro ⟨sg', hsg', hps⟩
        rcases List.mem_cons.mp hsg' with rfl | hmem
        · cases hps
        · have := ih2 ⟨sg', hmem, hps⟩
          rw [h1, h2, hp, hc]; omega
    | brace n v =>
      have hp : (segPieces (.brace n v)).length = 1 := rfl
      have hc : (segRxChars (.brace n v)).length = 7 := rfl
      exact ⟨by rw [h1, h2, hp, hc]; omega,
        fun _ => by rw [h1, h2, hp, hc]; omega⟩
    | colon n v =>
      have hp : (segPieces (.colon n v)).length = 1 := rfl
      have hc : (segRxChars (.colon n v)).length = 7 := rfl
      exact ⟨by rw [h1, h2, hp, hc]; omega,
        fun _ => by rw [h1, h2, hp, hc]; omega⟩

/-- Compiling the rendered capturing regex succeeds and yields the expected
piece sequence (given at least one parameter). -/
lemma jsRegexParse_render (segs : List SegV) (hwf : ∀ sg ∈ segs, segWF sg)
    (hparam : ∃ sg ∈ segs, isParamSeg sg) :
    jsRegexParse (renderRx segs) = some (renderPieces segs) := by
  have hle := (renderPieces_length segs).2 hparam
  unfold jsRegexParse
  rw [show (renderRx segs).length + 1 =
      ((renderRx segs).length + 1 - (renderPieces segs).length) +
        (renderPieces segs).length by omega]
  rw [parseRxAux_render segs hwf _ (by omega)]

/-- The greedy run of `[^/]*` over a slash-free block stops exactly at the
following `/` (or at the end). -/
lemma starOutcomes_head {v : List Char} (hv : ∀ c ∈ v, c ≠ '/') :
    ∀ u, (u = [] ∨ u.head? = some '/') →
    ∃ t, starOutcomes (SAtom.cls true ['/']) (v ++ u) = u :: t := by
  induction v with
  | nil =>
    intro u hu
    rcases hu with rfl | hu
    · exact ⟨[], rfl⟩
    · cases u with
      | nil => exact ⟨[], rfl⟩
      | cons c w =>
        simp at hu
        subst hu
        refine ⟨[], ?_⟩
        simp [starOutcomes, atomMatches]
  | cons d v ih =>
    intro u hu
    have hd : d ≠ '/' := hv d (by simp)
    obtain ⟨t, ht⟩ := ih (fun c hc => hv c (by simp [hc])) u hu
    refine ⟨t ++ [d :: (v ++ u)], ?_⟩
    simp [starOutcomes, atomMatches, hd, ht]

/-- The greedy run of `[^/]+` over a nonempty slash-free block captures the
whole block. -/
lemma runSimple_negplus_head {v u : List Char} (hv : v ≠ [])
    (hvs : ∀ c ∈ v, c ≠ '/') (hu : u = [] ∨ u.head? = some '/') :
    ∃ t, runSimple ⟨.cls true ['/'], .plus⟩ (v ++ u) = u :: t := by
  cases v with
  | nil => exact absurd rfl hv
  | cons d v' =>
    have hd : d ≠ '/' := hvs d (by simp)
    obtain ⟨t, ht⟩ := starOutcomes_head (v := v')
      (fun c hc => hvs c (List.mem_cons_of_mem d hc)) u hu
    refine ⟨t, ?_⟩
    simp only [List.cons_append, runSimple, atomMatches]
    simp [hd, ht]

/-- A literal run of characters at the head of the regex consumes itself. -/
lemma runPieces_litrun (l : List Char) (P : List RPiece) (u : List Char) :
    runPieces ((l.map fun c => RPiece.simple ⟨.chr c, .one⟩) ++ P) (l ++ u) =
      runPieces P u := by
  induction l with
  | nil => rfl
  | cons c l ih =>
    simp only [List.map_cons, List.cons_append, runPieces, runSimple,
      atomMatches]
    simp [ih]

/-- Head of the backtracking outcome list on a rendered pattern: the fully
greedy path consumes the whole path and captures each parameter value, in
path order. -/
lemma runPieces_render (segs : List SegV) (hwf : ∀ sg ∈ segs, segWF sg) :
    ∃ t, runPieces (renderPieces segs) (renderUrl segs) =
      ([], (paramValsOf segs).map String.toList) :: t := by
  induction segs with
  | nil => exact ⟨[], rfl⟩
  | cons sg segs ih =>
    have hsg := hwf sg (by simp)
    obtain ⟨tail, htail⟩ := ih fun s hs => hwf s (by simp [hs])
    have hshape : renderUrl (sg :: segs) =
        '/' :: (segUrlChars sg ++ renderUrl segs) := by
      simp [renderUrl]
    have hpieces : renderPieces (sg :: segs) =
        RPiece.simple ⟨.chr '/', .one⟩ :: (segPieces sg ++ renderPieces segs) := by
      simp [renderPieces]
    have hslash : ∀ X u, runPieces (RPiece.simple ⟨.chr '/', .one⟩ :: X) ('/' :: u) =
        runPieces X u := by
      intro X u
      simp [runPieces, runSimple, atomMatches]
    rw [hshape, hpieces, hslash]
    have hu : renderUrl segs = [] ∨ (renderUrl segs).head? = some '/' := by
      cases segs with
      | nil => exact Or.inl rfl
      | cons sg' segs' =>
        right
        have : renderUrl (sg' :: segs') =
            '/' :: (segUrlChars sg' ++ renderUrl segs') := by
          simp [renderUrl]
        rw [this]
        rfl
    cases sg with
    | lit s =>
      have : segPieces (.lit s) ++ renderPieces segs =
          (s.toList.map fun c => RPiece.simple ⟨.chr c, .one⟩) ++
            renderPieces segs := rfl
      rw [this,
        show segUrlChars (.lit s) ++ renderUrl segs =
          s.toList ++ renderUrl segs from rfl,
        runPieces_litrun]
      exact ⟨tail, htail⟩
    | brace n v =>
      obtain ⟨_, hvne, hvs⟩ := hsg
      obtain ⟨t, ht⟩ := runSimple_negplus_head hvne hvs hu
      have hgroup : segPieces (.brace n v) ++ renderPieces segs =
          RPiece.group [⟨.cls true ['/'], .plus⟩] :: renderPieces segs := rfl
      rw [hgroup,
        show segUrlChars (.brace n v) ++ renderUrl segs =
          v.toList ++ renderUrl segs from rfl]
      simp only [runPieces, runSimples, List.flatMap_cons, List.flatMap_nil,
        List.append_nil]
      have hflat : (runSimple ⟨.cls true ['/'], .plus⟩
          (v.toList ++ renderUrl segs)).flatMap
            (fun r => [r]) = runSimple ⟨.cls true ['/'], .plus⟩
          (v.toList ++ renderUrl segs) := by
        simp
      have hcap : (v.toList ++ renderUrl segs).take
          ((v.toList ++ renderUrl segs).length - (renderUrl segs).length) =
            v.toList := by
        have hlen : (v.toList ++ renderUrl segs).length -
            (renderUrl segs).length = v.toList.length := by
          simp
        rw [hlen, List.take_left]
      rw [hflat, ht]
      simp only [List.flatMap_cons, htail, List.map_cons, hcap,
        List.cons_append, paramValsOf]
      exact ⟨_, rfl⟩
    | colon n v =>
      obtain ⟨_, hvne, hvs⟩ := hsg
      obtain ⟨t, ht⟩ := runSimple_negplus_head hvne hvs hu
      have hgroup : segPieces (.colon n v) ++ renderPieces segs =
          RPiece.group [⟨.cls true ['/'], .plus⟩] :: renderPieces segs := rfl
      rw [hgroup,
        show segUrlChars (.colon n v) ++ renderUrl segs =
          v.toList ++ renderUrl segs from rfl]
      simp only [runPieces, runSimples, List.flatMap_cons, List.flatMap_nil,
        List.append_nil]
      have hflat : (runSimple ⟨.cls true ['/'], .plus⟩
          (v.toList ++ renderUrl segs)).flatMap
            (fun r => [r]) = runSimple ⟨.cls true ['/'], .plus⟩
          (v.toList ++ renderUrl segs) := by
        simp
      have hcap : (v.toList ++ renderUrl segs).take
          ((v.toList ++ renderUrl segs).length - (renderUrl segs).length) =
            v.toList := by
        have hlen : (v.toList ++ renderUrl segs).length -
            (renderUrl segs).length = v.toList.length := by
          simp
        rw [hlen, List.take_left]
      rw [hflat, ht]
      simp only [List.flatMap_cons, htail, List.map_cons, hcap,
        List.cons_append, paramValsOf]
      exact ⟨_, rfl⟩

/-- The first full-match outcome of the rendered capturing regex against the
rendered path captures exactly the parameter values, in path order. -/
lemma rxFullMatch_render (segs : List SegV) (hwf : ∀ sg ∈ segs, segWF sg) :
    rxFullMatch (renderPieces segs) (renderUrl segs) =
      some ((paramValsOf segs).map String.toList) := by
  obtain ⟨t, ht⟩ := runPieces_render segs hwf
  unfold rxFullMatch
  rw [ht]
  rfl

/-- Each parameter contributes one name and one value: the two name scans
together are as long as the capture list. -/
lemma names_vals_length (segs : List SegV) :
    (braceNamesOf segs ++ colonNamesOf segs).length =
      (paramValsOf segs).length := by
  induction segs with
  | nil => rfl
  | cons sg segs ih =>
    cases sg with
    | lit s => simpa [braceNamesOf, colonNamesOf, paramValsOf] using ih
    | brace n v =>
      simp only [braceNamesOf, colonNamesOf, paramValsOf, List.length_append,
        List.length_cons] at ih ⊢
      omega
    | colon n v =>
      simp only [braceNamesOf, colonNamesOf, paramValsOf, List.length_append,
        List.length_cons] at ih ⊢
      omega

/-- A nonempty combined name list forces at least one parameter segment. -/
lemma param_of_names_ne (segs : List SegV)
    (h : braceNamesOf segs ++ colonNamesOf segs ≠ []) :
    ∃ sg ∈ segs, isParamSeg sg := by
  induction segs with
  | nil => simp [braceNamesOf, colonNamesOf] at h
  | cons sg segs ih =>
    cases sg with
    | lit s =>
      obtain ⟨sg', h1, h2⟩ := ih (by simpa [braceNamesOf, colonNamesOf] using h)
      exact ⟨sg', List.mem_cons_of_mem _ h1, h2⟩
    | brace n v => exact ⟨.brace n v, by simp, trivial⟩
    | colon n v => exact ⟨.colon n v, by simp, trivial⟩

/-- Every captured value of a well-formed rendering is nonempty (so none is
skipped as falsy by the assignment loop). -/
lemma paramVals_ne_nil (segs : List SegV) (hwf : ∀ sg ∈ segs, segWF sg) :
    ∀ v ∈ (paramValsOf segs).map String.toList, v ≠ [] := by
  induction segs with
  | nil => simp [paramValsOf]
  | cons sg segs ih =>
    have hsg := hwf sg (by simp)
    have ih' := ih fun s hs => hwf s (by simp [hs])
    cases sg with
    | lit s => simpa [paramValsOf] using ih'
    | brace n v =>
      intro w hw
      have hw' : w = v.toList ∨ w ∈ (paramValsOf segs).map String.toList := by
        simpa [paramValsOf] using hw
      rcases hw' with rfl | hmem
      · exact hsg.2.1
      · exact ih' w hmem
    | colon n v =>
      intro w hw
      have hw' : w = v.toList ∨ w ∈ (paramValsOf segs).map String.toList := by
        simpa [paramValsOf] using hw
      rcases hw' with rfl | hmem
      · exact hsg.2.1
      · exact ih' w hmem

/-- Setting a key that is not yet present appends it. -/
lemma recordSet_append {m : List (String × String)} {k : String}
    (hk : ∀ p ∈ m, p.1 ≠ k) (v : String) :
    recordSet m k v = m ++ [(k, v)] := by
  have hcond : ¬((m.any fun p => p.1 == k) = true) := by
    rw [List.any_eq_true]
    rintro ⟨p, hp, hpk⟩
    exact hk p hp (by simpa using hpk)
  unfold recordSet
  rw [if_neg hcond]

/-- With pairwise-distinct names, none already present, and no falsy capture,
the index-wise assignment loop is exactly `zip`. -/
lemma assignParams_zip (names : List String) :
    ∀ (caps : List (List Char)) (m : List (String × String)),
      names.Nodup → (∀ n ∈ names, ∀ p ∈ m, p.1 ≠ n) →
      (∀ c ∈ caps, c ≠ []) → names.length = caps.length →
      assignParams names caps m = m ++ names.zip (caps.map String.mk) := by
  induction names with
  | nil =>
    intro caps m _ _ _ _
    simp [assignParams]
  | cons n ns ih =>
    intro caps m hnd hnotin hne hlen
    cases caps with
    | nil => simp at hlen
    | cons c cs =>
      have hcne : c ≠ [] := hne c (by simp)
      have hstep : assignParams (n :: ns) (c :: cs) m =
          assignParams ns cs (recordSet m n (String.mk c)) := by
        simp [assignParams, hcne]
      rw [hstep,
        recordSet_append (fun p hp => hnotin n (by simp) p hp) (String.mk c)]
      rw [ih cs (m ++ [(n, String.mk c)]) (List.nodup_cons.mp hnd).2 ?hnot
        (fun c' hc' => hne c' (by simp [hc'])) (by simpa using hlen)]
      · simp
      case hnot =>
        intro n' hn' p hp
        rcases List.mem_append.mp hp with hpm | hps
        · exact hnotin n' (by simp [hn']) p hpm
        · have hp1 : p = (n, String.mk c) := by simpa using hps
          subst hp1
          intro hcon
          have hnn : n = n' := hcon
          exact (List.nodup_cons.mp hnd).1 (by rw [hnn]; exact hn')

/-- C5 (counterexample to the original claim): for the mixed pattern
`/:a/{b}` against `/1/2` the left-to-right declaration order is `a` then
`b`, so position-wise assignment would give `a ↦ "1", b ↦ "2"`; the code
instead collects all `{...}` names before all `:...` names and assigns the
positional captures to that reordered list, yielding `b ↦ "1", a ↦ "2"`. -/
theorem C5_counterexample :
    extractPathParameters "/1/2" "/:a/{b}" = [("b", "1"), ("a", "2")] := by
  rfl

/-- C5 (amended): `extractPathParameters` maps the positional captures not to
the names in left-to-right declaration order but to all `{name}` parameters
(in declaration order) followed by all `:name` parameters (in declaration
order) — the two orders coincide exactly when every `{name}` precedes every
`:name`, as in the spec's P4 example. -/
theorem C5_param_names_brace_first (segs : List SegV)
    (hwf : ∀ sg ∈ segs, segWF sg)
    (hnd : (braceNamesOf segs ++ colonNamesOf segs).Nodup) :
    extractPathParameters (String.mk (renderUrl segs))
        (String.mk (renderPattern segs)) =
      (braceNamesOf segs ++ colonNamesOf segs).zip (paramValsOf segs) := by
  have htlp : (String.mk (renderPattern segs)).toList = renderPattern segs := rfl
  have htlu : (String.mk (renderUrl segs)).toList = renderUrl segs := rfl
  have hnames : braceParamNames (renderPattern segs) ++
      colonParamNames (renderPattern segs) =
      braceNamesOf segs ++ colonNamesOf segs := by
    unfold braceParamNames colonParamNames
    rw [braceNames_render segs hwf, colonNames_render segs hwf]
  by_cases hempty : (braceNamesOf segs ++ colonNamesOf segs).isEmpty = true
  case pos =>
    have hz : braceNamesOf segs ++ colonNamesOf segs = [] :=
      List.isEmpty_iff.mp hempty
    simp only [extractPathParameters, htlp, htlu, hnames, hz]
    rfl
  case neg =>
    have hne : braceNamesOf segs ++ colonNamesOf segs ≠ [] := by
      intro h
      exact hempty (by simp [h])
    have hparam := param_of_names_ne segs hne
    have hrx : extractRegexBody (String.mk (renderPattern segs)) =
        renderRx segs := by
      unfold extractRegexBody replaceColonsL replaceBracesL
      rw [htlp, replaceBraces_render segs hwf, replaceColons_renderMid segs hwf]
    have hlen : (braceNamesOf segs ++ colonNamesOf segs).length =
        ((paramValsOf segs).map String.toList).length := by
      rw [List.length_map]
      exact names_vals_length segs
    have hgelen : ((paramValsOf segs).map String.toList).length ≥ 1 := by
      rw [← hlen]
      cases h : braceNamesOf segs ++ colonNamesOf segs with
      | nil => exact absurd h hne
      | cons _ _ => simp
    simp only [extractPathParameters, htlp, htlu, hnames, hrx,
      jsRegexParse_render segs hwf hparam, rxFullMatch_render segs hwf,
      hempty, if_false, Bool.false_eq_true, if_pos hgelen]
    rw [assignParams_zip _ _ [] hnd
      (fun n _ p hp => absurd hp (List.not_mem_nil p))
      (paramVals_ne_nil segs hwf) hlen]
    rw [List.nil_append, List.map_map]
    have hid : ∀ l : List String, l.map (String.mk ∘ String.toList) = l := by
      intro l
      induction l with
      | nil => rfl
      | cons a l ihl =>
        rw [List.map_cons, ihl]
        rfl
    rw [hid]

/-- C5 (witness, the spec's P4 example): on
`/api/users/{userId}/posts/:postId` against `/api/users/42/posts/7`, where
the single `{name}` precedes the single `:name`, the amended order agrees
with the claim and the extraction yields `userId ↦ "42", postId ↦ "7"`. -/
theorem C5_param_names_brace_first_witness :
    extractPathParameters "/api/users/42/posts/7"
        "/api/users/{userId}/posts/:postId" =
      [("userId", "42"), ("postId", "7")] := by
  have h := C5_param_names_brace_first
      [SegV.lit "api", SegV.lit "users", SegV.brace "userId" "42",
        SegV.lit "posts", SegV.colon "postId" "7"]
      (by
        intro sg hsg
        fin_cases hsg
        · exact ⟨by decide, by decide⟩
        · exact ⟨by decide, by decide⟩
        · exact ⟨⟨by decide, by decide⟩, by decide, by decide⟩
        · exact ⟨by decide, by decide⟩
        · exact ⟨⟨by decide, by decide⟩, by decide, by decide⟩)
      (by decide)
  have e1 : String.mk (renderUrl
      [SegV.lit "api", SegV.lit "users", SegV.brace "userId" "42",
        SegV.lit "posts", SegV.colon "postId" "7"]) =
      "/api/users/42/posts/7" := rfl
  have e2 : String.mk (renderPattern
      [SegV.lit "api", SegV.lit "users", SegV.brace "userId" "42",
        SegV.lit "posts", SegV.colon "postId" "7"]) =
      "/api/users/{userId}/posts/:postId" := rfl
  have e3 : (braceNamesOf
      [SegV.lit "api", SegV.lit "users", SegV.brace "userId" "42",
        SegV.lit "posts", SegV.colon "postId" "7"] ++
      colonNamesOf
      [SegV.lit "api", SegV.lit "users", SegV.brace "userId" "42",
        SegV.lit "posts", SegV.colon "postId" "7"]).zip
      (paramValsOf
      [SegV.lit "api", SegV.lit "users", SegV.brace "userId" "42",
        SegV.lit "posts", SegV.colon "postId" "7"]) =
      [("userId", "42"), ("postId", "7")] := rfl
  rw [e1, e2, e3] at h
  exact h

end Mirage
